import Mathlib

/-!
Shallow embedding of the version-comparison and metadata-validation core of
`pydpkg` (src/pydpkg/dpkg.py), together with proofs about the claims of the
specification.  Python strings are modelled as Lean `String`/`List Char`
(ASCII semantics, as the source itself documents for the comparison
algorithm); Python exceptions are modelled with `Except String`; Python's
unbounded `int` is modelled with `Int`/`Nat`.
-/

deriving instance DecidableEq for Except

namespace Dpkg

/-- ASCII whitespace, as stripped by Python `int(str)` before parsing. -/
def isPySpace (c : Char) : Bool :=
  c = ' ' || c = '\t' || c = '\n' || c = '\x0d' || c = '\x0b' || c = '\x0c'

/-- Digit-sequence part of Python `int(str)` parsing: a nonempty run of
decimal digits in which single underscores may appear strictly between
digits.  Accumulator-style decimal evaluation. -/
def pyIntDigitsGo (acc : Nat) : List Char → Option Nat
  | [] => some acc
  | c :: cs =>
    if c = '_' then
      match cs with
      | [] => none
      | c2 :: cs2 =>
        if c2.isDigit then pyIntDigitsGo (acc * 10 + (c2.toNat - 48)) cs2 else none
    else if c.isDigit then pyIntDigitsGo (acc * 10 + (c.toNat - 48)) cs
    else none

/-- Parse a nonempty, optionally underscore-grouped decimal digit string. -/
def pyIntDigits : List Char → Option Nat
  | [] => none
  | c :: cs => if c.isDigit then pyIntDigitsGo (c.toNat - 48) cs else none

/-- Python `int(str)`: strip surrounding whitespace, allow one optional sign,
then a nonempty digit sequence (underscore grouping allowed).  Returns `none`
where Python raises `ValueError`. -/
def pyInt (s : List Char) : Option Int :=
  let t := ((s.dropWhile isPySpace).reverse.dropWhile isPySpace).reverse
  match t with
  | '+' :: rest => (pyIntDigits rest).map (fun n => (n : Int))
  | '-' :: rest => (pyIntDigits rest).map (fun n => -(n : Int))
  | rest => (pyIntDigits rest).map (fun n => (n : Int))

/-- Error message used by the epoch parser (`DpkgVersionError`). -/
def epochErr : String := "DpkgVersionError: epochs can only be ints, and epochless versions cannot use the colon character"

/-- `Dpkg.get_epoch`: find the first `:`; without one the epoch is 0 and the
whole string remains; with one, Python `int()` is applied to the prefix and a
`DpkgVersionError` is raised when that fails. -/
def get_epoch (s : String) : Except String (Int × String) :=
  if ':' ∈ s.data then
    match pyInt (s.data.takeWhile (fun c => c ≠ ':')) with
    | some e => .ok (e, ⟨(s.data.dropWhile (fun c => c ≠ ':')).drop 1⟩)
    | none => .error epochErr
  else .ok (0, s)

/-- `Dpkg.get_upstream`: split at the last `-` (Python `str.rindex`); without
one the debian revision defaults to `"0"`. -/
def get_upstream (s : String) : String × String :=
  if '-' ∈ s.data then
    (⟨(((s.data.reverse).dropWhile (fun c => c ≠ '-')).drop 1).reverse⟩,
     ⟨((s.data.reverse).takeWhile (fun c => c ≠ '-')).reverse⟩)
  else (s, "0")

/-- `Dpkg.split_full_version`: epoch, upstream version, debian revision. -/
def split_full_version (s : String) : Except String (Int × String × String) :=
  match get_epoch s with
  | .error m => .error m
  | .ok (e, rest) =>
    let (u, d) := get_upstream rest
    .ok (e, u, d)

/-- Alternating token produced by `listify`: a string run or a numeric run. -/
inductive Tok where
  | str : String → Tok
  | num : Nat → Tok
deriving DecidableEq

/-- `Dpkg.get_alphas`: the maximal leading run of non-digit characters,
and the remainder. -/
def get_alphas : List Char → List Char × List Char
  | [] => ([], [])
  | c :: cs =>
    if c.isDigit then ([], c :: cs)
    else
      let (a, r) := get_alphas cs
      (c :: a, r)

/-- Accumulator loop of `Dpkg.get_digits` (Python `int()` of the digit run). -/
def get_digits_go (acc : Nat) : List Char → Nat × List Char
  | [] => (acc, [])
  | c :: cs => if c.isDigit then get_digits_go (acc * 10 + (c.toNat - 48)) cs else (acc, c :: cs)

/-- `Dpkg.get_digits`: numeric value of the maximal leading digit run
(0 when the run is empty), and the remainder. -/
def get_digits (s : List Char) : Nat × List Char := get_digits_go 0 s

/-- Loop body of `Dpkg.listify`, with explicit fuel.  The Python `while`
loop terminates because each iteration consumes at least one character, so
`fuel = length of the string` always suffices (`listify` below). -/
def listify_go : Nat → List Char → List Tok
  | _, [] => []
  | 0, _ :: _ => []
  | fuel + 1, c :: cs =>
    let (a, r1) := get_alphas (c :: cs)
    let (n, r2) := get_digits r1
    Tok.str ⟨a⟩ :: Tok.num n :: listify_go fuel r2

/-- `Dpkg.listify`: split a revision string into alternating string and
numeric tokens, always `str, int, str, int, ...` and of even length. -/
def listify (l : List Char) : List Tok := listify_go l.length l

/-- Error message for the unreachable end of `dstringcmp`. -/
def dscEndErr : String := "DpkgVersionError: should have matched equal in the beginning"

/-- Character-by-character loop of `Dpkg.dstringcmp` (the `zip_longest`
walk): the pattern on two lists plays the role of `zip_longest` with `None`
fill values, and the final recursive call in the ordinal branch mirrors the
loop `continue` (it is unreachable, since unequal characters have unequal
ordinals). -/
def dsc_go : List Char → List Char → Except String Int
  | [], [] => .error dscEndErr
  | ca :: _, [] => .ok (if ca = '~' then -1 else 1)
  | [], cb :: _ => .ok (if cb = '~' then 1 else -1)
  | ca :: as, cb :: bs =>
    if ca = cb then dsc_go as bs
    else if ca = '~' then .ok (-1)
    else if cb = '~' then .ok 1
    else if ca.isAlpha && !cb.isAlpha then .ok (-1)
    else if !ca.isAlpha && cb.isAlpha then .ok 1
    else if cb.toNat < ca.toNat then .ok 1
    else if ca.toNat < cb.toNat then .ok (-1)
    else dsc_go as bs

/-- `Dpkg.dstringcmp`: debian package version string section lexical sort. -/
def dstringcmp (a b : String) : Except String Int :=
  if a = b then .ok 0 else dsc_go a.data b.data

/-- Error message of `_tilde_case` in `compare_revision_strings`. -/
def tildeErr : String := "DpkgVersionError: cannot compare element to tilde"

/-- Error corresponding to the Python `IndexError` raised by `elem[0]` when
`_tilde_case` receives an empty string token. -/
def idxErr : String := "IndexError: string index out of range"

/-- `_tilde_case` of `Dpkg.compare_revision_strings`: examine the first
character of a trailing extra token; raises on a non-string token, and the
`elem[0]` subscript raises `IndexError` on an empty string token. -/
def tildeElem : Tok → Except String Int
  | .str s =>
    match s.data with
    | [] => .error idxErr
    | c :: _ => .ok (if c = '~' then -1 else 1)
  | .num _ => .error tildeErr

/-- Error message for a string-vs-int token comparison. -/
def mismatchErr : String := "DpkgVersionError: cannot compare int to str"

/-- One aligned token comparison inside `compare_revision_strings`:
`_numeric_case` for two ints, `dstringcmp` for two strings, and a
`DpkgVersionError` on a type mismatch. -/
def cmpTok : Tok → Tok → Except String Int
  | .num n1, .num n2 => .ok (if n2 < n1 then 1 else if n1 < n2 then -1 else 0)
  | .str s1, .str s2 => dstringcmp s1 s2
  | .num _, .str _ => .error mismatchErr
  | .str _, .num _ => .error mismatchErr

/-- Error message for the unreachable end of `compare_revision_strings`. -/
def crsEndErr : String := "DpkgVersionError: should have matched equal in the beginning (revision)"

/-- The `zip_longest` walk of `Dpkg.compare_revision_strings` over the two
token lists. -/
def crs_go : List Tok → List Tok → Except String Int
  | [], [] => .error crsEndErr
  | t1 :: _, [] => tildeElem t1
  | [], t2 :: _ =>
    match tildeElem t2 with
    | .error m => .error m
    | .ok v => .ok (if v = 1 then -1 else 1)
  | t1 :: ts1, t2 :: ts2 =>
    match cmpTok t1 t2 with
    | .error m => .error m
    | .ok c => if c = 0 then crs_go ts1 ts2 else .ok c

/-- `Dpkg.compare_revision_strings`: compare two revision strings through
their `listify` token sequences. -/
def compare_revision_strings (r1 r2 : String) : Except String Int :=
  if r1 = r2 then .ok 0
  else if listify r1.data = listify r2.data then .ok 0
  else crs_go (listify r1.data) (listify r2.data)

/-- `Dpkg.compare_versions`: equal strings short-circuit to 0; otherwise
split both versions, compare epochs numerically, then the upstream versions,
then the debian revisions. -/
def compare_versions (v1 v2 : String) : Except String Int :=
  if v1 = v2 then .ok 0
  else
    match split_full_version v1 with
    | .error m => .error m
    | .ok (e1, u1, d1) =>
      match split_full_version v2 with
      | .error m => .error m
      | .ok (e2, u2, d2) =>
        if e1 < e2 then .ok (-1)
        else if e2 < e1 then .ok 1
        else
          match compare_revision_strings u1 u2 with
          | .error m => .error m
          | .ok upstrRes =>
            if upstrRes ≠ 0 then .ok upstrRes
            else
              match compare_revision_strings d1 d2 with
              | .error m => .error m
              | .ok debianRes => if debianRes ≠ 0 then .ok debianRes else .ok 0

/-- Compression kinds recognised for the control archive member. -/
inductive CompKind where
  | gz
  | xz
  | zst
deriving DecidableEq

/-- Error message of `_read_archive` (`DpkgMissingControlGzipFile`). -/
def missingControlErr : String := "Corrupt dpkg file: no control.tar.gz/xz/zst file in ar archive"

/-- `Dpkg._read_archive`, abstracted over the ar member names: look for
`control.tar.gz`, then `control.tar.xz`, then `control.tar.zst`, in that
order, and fail when none is present. -/
def read_archive (names : List String) : Except String CompKind :=
  if "control.tar.gz" ∈ names then .ok .gz
  else if "control.tar.xz" ∈ names then .ok .xz
  else if "control.tar.zst" ∈ names then .ok .zst
  else .error missingControlErr

/-- The module-level `REQUIRED_HEADERS` tuple. -/
def REQUIRED_HEADERS : List String := ["package", "version", "architecture"]

/-- Error message of the missing-header check (`DpkgMissingRequiredHeaderError`). -/
def missingHeaderErr (req : String) : String :=
  "Corrupt control section; header: " ++ req ++ " not found"

/-- The required-header loop of `Dpkg._process_dpkg_file`: for each required
header, if it is not among the lowercased message keys, skip it when
`ignore_missing` is set and raise otherwise. -/
def check_headers (ignoreMissing : Bool) (lowerKeys : List String) : List String → Except String Unit
  | [] => .ok ()
  | req :: rest =>
    if req ∈ lowerKeys then check_headers ignoreMissing lowerKeys rest
    else if ignoreMissing then check_headers ignoreMissing lowerKeys rest
    else .error (missingHeaderErr req)

/-- Python `str.lower` on ASCII text, character by character. -/
def pyLower (s : String) : String := ⟨s.data.map Char.toLower⟩

/-- The header-validation stage of `Dpkg._process_dpkg_file`: verify the
lowercased header names against `REQUIRED_HEADERS` and return the message
(the subsequent utf-8 coercion is the identity on text values). -/
def process_headers (ignoreMissing : Bool) (headers : List (String × String)) :
    Except String (List (String × String)) :=
  match check_headers ignoreMissing ((headers.map Prod.fst).map pyLower) REQUIRED_HEADERS with
  | .error m => .error m
  | .ok _ => .ok headers

/-! Verification-side definitions: an order-theoretic key for the
character comparison, token predicates, and decimal rendering, used to state
and prove the claims. -/

/-- Rank of a character in the `dstringcmp` order: `~` below everything,
then (strictly above the rank 1 reserved for the end of a string) all
letters by codepoint, then all other characters by codepoint. -/
def rank (c : Char) : Nat :=
  if c = '~' then 0
  else if c.isAlpha then 2 + c.toNat
  else 2 + 1114112 + c.toNat

/-- Rank image of a string. -/
def keyStr (s : String) : List Nat := s.data.map rank

/-- Three-way lexicographic comparison of two rank lists in which a missing
element behaves like a value strictly between 0 and 1 (so the end of a
string ties with nothing, sorts above `~` and below every other rank). -/
def cmpPad : List Nat → List Nat → Int
  | [], [] => 0
  | x :: _, [] => if x < 1 then -1 else 1
  | [], y :: _ => if y < 1 then 1 else -1
  | x :: xs, y :: ys => if x < y then -1 else if y < x then 1 else cmpPad xs ys

/-- Flatten a token list into a single rank list: each string token
contributes its rank image followed by the end sentinel 1, each numeric
token contributes a single unbounded numeric rank. -/
def flatToks : List Tok → List Nat
  | [] => []
  | .str s :: rest => keyStr s ++ 1 :: flatToks rest
  | .num n :: rest => (2224226 + n) :: flatToks rest

/-- Rank-list key of a whole revision string. -/
def rkey (r : String) : List Nat := flatToks (listify r.data)

/-- A token list consists of consecutive string-token/numeric-token pairs:
it has even length and strictly alternates, starting with a string slot. -/
def chunked : List Tok → Bool
  | [] => true
  | .str _ :: .num _ :: rest => chunked rest
  | _ => false

/-- Fuelled canonical decimal rendering of a natural number
(`fuel = n` suffices, see `natToDigits`). -/
def ndFuel : Nat → Nat → List Char
  | 0, n => [Nat.digitChar (n % 10)]
  | fuel + 1, n => if n < 10 then [Nat.digitChar n] else ndFuel fuel (n / 10) ++ [Nat.digitChar (n % 10)]

/-- Canonical decimal digit list of a natural number. -/
def natToDigits (n : Nat) : List Char := ndFuel n n

/-- Characters contributed by one token when the token list is written
back out as text. -/
def renderTok : Tok → List Char
  | .str s => s.data
  | .num n => natToDigits n

/-- Concatenation of the textual form of every token. -/
def renderToks : List Tok → List Char
  | [] => []
  | t :: ts => renderTok t ++ renderToks ts

/-- Decimal value of a digit run, as computed by `get_digits`. -/
def digitVal (ds : List Char) : Nat := ds.foldl (fun a c => a * 10 + (c.toNat - 48)) 0

/-- Fuelled scan checking that every maximal digit run of the string is in
canonical decimal form (no leading zero unless the run is the single digit
`0`); same peeling structure and fuel discipline as `listify_go`. -/
def canonF : Nat → List Char → Bool
  | _, [] => true
  | 0, _ :: _ => true
  | fuel + 1, c :: cs =>
    let r1 := (get_alphas (c :: cs)).2
    (match r1 with
     | [] => true
     | d :: ds => decide (d ≠ '0') || (ds.takeWhile Char.isDigit).isEmpty) &&
    canonF fuel (get_digits r1).2

/-- Every maximal digit run of the string is canonical decimal. -/
def digitRunsCanon (l : List Char) : Bool := canonF l.length l

end Dpkg

namespace Dpkg

/-! Order-theoretic facts about `cmpPad`. -/

theorem cmpPad_refl : ∀ l : List Nat, cmpPad l l = 0
  | [] => rfl
  | _ :: xs => by simp [cmpPad, cmpPad_refl xs]

theorem cmpPad_eq_zero : ∀ (a b : List Nat), cmpPad a b = 0 → a = b := by
  intro a
  induction a with
  | nil =>
    intro b h
    cases b with
    | nil => rfl
    | cons y ys => simp only [cmpPad] at h; split_ifs at h <;> omega
  | cons x xs ih =>
    intro b h
    cases b with
    | nil => simp only [cmpPad] at h; split_ifs at h <;> omega
    | cons y ys =>
      simp only [cmpPad] at h
      split_ifs at h with h1 h2 <;>
        first
          | omega
          | (have hxy : x = y := by omega
             rw [hxy, ih ys h])

theorem cmpPad_neg : ∀ (a b : List Nat), cmpPad b a = -cmpPad a b := by
  intro a
  induction a with
  | nil =>
    intro b
    cases b with
    | nil => simp [cmpPad]
    | cons y ys => simp only [cmpPad]; split_ifs <;> omega
  | cons x xs ih =>
    intro b
    cases b with
    | nil => simp only [cmpPad]; split_ifs <;> omega
    | cons y ys =>
      simp only [cmpPad]
      split_ifs <;> first | omega | exact ih ys

theorem cmpPad_trans_le : ∀ (a b c : List Nat),
    cmpPad a b ≤ 0 → cmpPad b c ≤ 0 → cmpPad a c ≤ 0 := by
  intro a
  induction a with
  | nil =>
    intro b c hab hbc
    cases b with
    | nil => exact hbc
    | cons y ys =>
      cases c with
      | nil => simp [cmpPad]
      | cons z zs =>
        simp only [cmpPad] at hab hbc ⊢
        split_ifs at hab hbc ⊢ <;> omega
  | cons x xs ih =>
    intro b c hab hbc
    cases b with
    | nil =>
      cases c with
      | nil => exact hab
      | cons z zs =>
        simp only [cmpPad] at hab hbc ⊢
        split_ifs at hab hbc ⊢ <;> omega
    | cons y ys =>
      cases c with
      | nil =>
        simp only [cmpPad] at hab hbc ⊢
        split_ifs at hab hbc ⊢ <;> omega
      | cons z zs =>
        simp only [cmpPad] at hab hbc ⊢
        split_ifs at hab hbc ⊢ <;> first | omega | exact ih ys zs hab hbc

theorem cmpPad_trans_le_lt (a b c : List Nat)
    (h1 : cmpPad a b ≤ 0) (h2 : cmpPad b c < 0) : cmpPad a c < 0 := by
  by_contra h
  push_neg at h
  have hca : cmpPad c a ≤ 0 := by have := cmpPad_neg a c; omega
  have hcb : cmpPad c b ≤ 0 := cmpPad_trans_le c a b hca h1
  have : cmpPad b c ≥ 0 := by have := cmpPad_neg c b; omega
  omega

theorem cmpPad_trans_lt_le (a b c : List Nat)
    (h1 : cmpPad a b < 0) (h2 : cmpPad b c ≤ 0) : cmpPad a c < 0 := by
  by_contra h
  push_neg at h
  have hca : cmpPad c a ≤ 0 := by have := cmpPad_neg a c; omega
  have hcb : cmpPad c b ≤ 0 := cmpPad_trans_le c a b hca (le_of_lt h1)
  have hbc0 : cmpPad b c = 0 := by have := cmpPad_neg c b; omega
  have hb : b = c := cmpPad_eq_zero b c hbc0
  rw [hb] at h1
  omega

theorem cmpPad_append_left : ∀ (k a b : List Nat), cmpPad (k ++ a) (k ++ b) = cmpPad a b := by
  intro k
  induction k with
  | nil => intro a b; rfl
  | cons x xs ih =>
    intro a b
    simp only [List.cons_append, cmpPad]
    split_ifs <;> first | omega | exact ih a b

theorem cmpPad_sentinel : ∀ (u v x y : List Nat),
    (∀ e ∈ u, e ≠ 1) → (∀ e ∈ v, e ≠ 1) → cmpPad u v ≠ 0 →
    cmpPad (u ++ 1 :: x) (v ++ 1 :: y) = cmpPad u v := by
  intro u
  induction u with
  | nil =>
    intro v x y _ hv hne
    cases v with
    | nil => simp [cmpPad] at hne
    | cons r v' =>
      have hr : r ≠ 1 := hv r (by simp)
      simp only [List.nil_append, List.cons_append, cmpPad]
      split_ifs <;> omega
  | cons a u' ih =>
    intro v x y hu hv hne
    cases v with
    | nil =>
      have ha : a ≠ 1 := hu a (by simp)
      simp only [List.cons_append, List.nil_append, cmpPad]
      split_ifs <;> omega
    | cons b v' =>
      simp only [cmpPad, List.cons_append] at hne ⊢
      split_ifs at hne ⊢ <;>
        first
          | rfl
          | omega
          | exact ih v' x y (fun e he => hu e (List.mem_cons_of_mem a he))
              (fun e he => hv e (List.mem_cons_of_mem b he)) hne

/-! Facts about character ranks. -/

theorem char_toNat_lt (c : Char) : c.toNat < 1114112 := by
  have h := c.valid
  rcases h with h | h
  · have : c.val.toNat < 55296 := h
    simp only [Char.toNat]
    omega
  · have : c.val.toNat < 1114112 := h.2
    simp only [Char.toNat]
    omega

theorem char_toNat_inj {a b : Char} (h : a.toNat = b.toNat) : a = b :=
  Char.eq_of_val_eq (UInt32.ext h)

theorem rank_ne_one (c : Char) : rank c ≠ 1 := by
  unfold rank
  split_ifs <;> omega

theorem rank_lt_one_iff (c : Char) : rank c < 1 ↔ c = '~' := by
  unfold rank
  split_ifs with h1 h2 <;> simp only [h1, iff_true, iff_false] <;> omega

theorem keyStr_ne_one (s : String) : ∀ e ∈ keyStr s, e ≠ 1 := by
  intro e he
  simp only [keyStr, List.mem_map] at he
  obtain ⟨c, _, rfl⟩ := he
  exact rank_ne_one c

end Dpkg

namespace Dpkg

/-! Correspondence between `dstringcmp` and the rank-list comparison. -/

theorem rank_cases (c : Char) :
    (c = '~' ∧ rank c = 0) ∨
    (c ≠ '~' ∧ c.isAlpha = true ∧ rank c = 2 + c.toNat) ∨
    (c ≠ '~' ∧ c.isAlpha = false ∧ rank c = 2 + 1114112 + c.toNat) := by
  unfold rank
  split_ifs with h1 h2
  · exact Or.inl ⟨h1, rfl⟩
  · exact Or.inr (Or.inl ⟨h1, h2, rfl⟩)
  · exact Or.inr (Or.inr ⟨h1, Bool.eq_false_iff.mpr h2, rfl⟩)

theorem rank_tilde : rank '~' = 0 := by simp [rank]

theorem dsc_step (ca cb : Char) (hne : ca ≠ cb) (z : Except String Int) (w : Int) :
    (if ca = '~' then Except.ok (-1 : Int)
     else if cb = '~' then Except.ok 1
     else if ca.isAlpha && !cb.isAlpha then Except.ok (-1)
     else if !ca.isAlpha && cb.isAlpha then Except.ok 1
     else if cb.toNat < ca.toNat then Except.ok 1
     else if ca.toNat < cb.toNat then Except.ok (-1)
     else z) =
    Except.ok (if rank ca < rank cb then -1 else if rank cb < rank ca then 1 else w) := by
  have hlta := char_toNat_lt ca
  have hltb := char_toNat_lt cb
  rcases rank_cases ca with ⟨ha, hra⟩ | ⟨ha, ha2, hra⟩ | ⟨ha, ha2, hra⟩ <;>
    rcases rank_cases cb with ⟨hb, hrb⟩ | ⟨hb, hb2, hrb⟩ | ⟨hb, hb2, hrb⟩
  · exact absurd (ha.trans hb.symm) hne
  · subst ha
    rw [if_pos rfl, if_pos (show rank '~' < rank cb by rw [rank_tilde, hrb]; omega)]
  · subst ha
    rw [if_pos rfl, if_pos (show rank '~' < rank cb by rw [rank_tilde, hrb]; omega)]
  · subst hb
    rw [if_neg ha, if_pos rfl, if_neg (show ¬ rank ca < rank '~' by rw [rank_tilde, hra]; omega),
      if_pos (show rank '~' < rank ca by rw [rank_tilde, hra]; omega)]
  · rw [if_neg ha, if_neg hb, if_neg (show ¬ (ca.isAlpha && !cb.isAlpha) = true by rw [ha2, hb2]; simp),
      if_neg (show ¬ (!ca.isAlpha && cb.isAlpha) = true by rw [ha2, hb2]; simp)]
    by_cases h5 : cb.toNat < ca.toNat
    · rw [if_pos h5, if_neg (show ¬ rank ca < rank cb by rw [hra, hrb]; omega),
        if_pos (show rank cb < rank ca by rw [hra, hrb]; omega)]
    · rw [if_neg h5]
      by_cases h6 : ca.toNat < cb.toNat
      · rw [if_pos h6, if_pos (show rank ca < rank cb by rw [hra, hrb]; omega)]
      · exact absurd (char_toNat_inj (by omega)) hne
  · rw [if_neg ha, if_neg hb, if_pos (show (ca.isAlpha && !cb.isAlpha) = true by rw [ha2, hb2]; rfl),
      if_pos (show rank ca < rank cb by rw [hra, hrb]; omega)]
  · subst hb
    rw [if_neg ha, if_pos rfl, if_neg (show ¬ rank ca < rank '~' by rw [rank_tilde, hra]; omega),
      if_pos (show rank '~' < rank ca by rw [rank_tilde, hra]; omega)]
  · rw [if_neg ha, if_neg hb, if_neg (show ¬ (ca.isAlpha && !cb.isAlpha) = true by rw [ha2]; simp),
      if_pos (show (!ca.isAlpha && cb.isAlpha) = true by rw [ha2, hb2]; rfl),
      if_neg (show ¬ rank ca < rank cb by rw [hra, hrb]; omega),
      if_pos (show rank cb < rank ca by rw [hra, hrb]; omega)]
  · rw [if_neg ha, if_neg hb, if_neg (show ¬ (ca.isAlpha && !cb.isAlpha) = true by rw [ha2]; simp),
      if_neg (show ¬ (!ca.isAlpha && cb.isAlpha) = true by rw [ha2, hb2]; simp)]
    by_cases h5 : cb.toNat < ca.toNat
    · rw [if_pos h5, if_neg (show ¬ rank ca < rank cb by rw [hra, hrb]; omega),
        if_pos (show rank cb < rank ca by rw [hra, hrb]; omega)]
    · rw [if_neg h5]
      by_cases h6 : ca.toNat < cb.toNat
      · rw [if_pos h6, if_pos (show rank ca < rank cb by rw [hra, hrb]; omega)]
      · exact absurd (char_toNat_inj (by omega)) hne

theorem dsc_go_eq : ∀ (as bs : List Char), as ≠ bs →
    dsc_go as bs = .ok (cmpPad (as.map rank) (bs.map rank)) := by
  intro as
  induction as with
  | nil =>
    intro bs hne
    cases bs with
    | nil => exact absurd rfl hne
    | cons cb bs' =>
      simp only [dsc_go, List.map, cmpPad]
      by_cases hcb : cb = '~'
      · rw [if_pos hcb, if_pos ((rank_lt_one_iff cb).mpr hcb)]
      · rw [if_neg hcb, if_neg (fun h => hcb ((rank_lt_one_iff cb).mp h))]
  | cons ca as' ih =>
    intro bs hne
    cases bs with
    | nil =>
      simp only [dsc_go, List.map, cmpPad]
      by_cases hca : ca = '~'
      · rw [if_pos hca, if_pos ((rank_lt_one_iff ca).mpr hca)]
      · rw [if_neg hca, if_neg (fun h => hca ((rank_lt_one_iff ca).mp h))]
    | cons cb bs' =>
      by_cases hab : ca = cb
      · subst hab
        have hne' : as' ≠ bs' := fun h => hne (by rw [h])
        have hL : dsc_go (ca :: as') (ca :: bs') = dsc_go as' bs' := by
          simp [dsc_go]
        have hR : cmpPad ((ca :: as').map rank) ((ca :: bs').map rank)
            = cmpPad (as'.map rank) (bs'.map rank) := by
          simp [cmpPad]
        rw [hL, hR, ih bs' hne']
      · simp only [dsc_go, if_neg hab, List.map, cmpPad]
        exact dsc_step ca cb hab _ _

theorem string_ne_of_data_ne {a b : String} (h : a ≠ b) : a.data ≠ b.data :=
  fun hd => h (congrArg String.mk hd)

theorem dstringcmp_eq (a b : String) : dstringcmp a b = .ok (cmpPad (keyStr a) (keyStr b)) := by
  unfold dstringcmp
  by_cases hab : a = b
  · subst hab
    rw [if_pos rfl, cmpPad_refl]
  · rw [if_neg hab, dsc_go_eq a.data b.data (string_ne_of_data_ne hab)]
    rfl

end Dpkg

namespace Dpkg

theorem flatToks_nil : flatToks [] = [] := rfl

theorem crs_go_eq : ∀ (l1 l2 : List Tok) (v : Int), crs_go l1 l2 = .ok v →
    cmpPad (flatToks l1) (flatToks l2) = v := by
  intro l1
  induction l1 with
  | nil =>
    intro l2 v h
    cases l2 with
    | nil => simp [crs_go] at h
    | cons t2 ts2 =>
      cases t2 with
      | num n => simp [crs_go, tildeElem] at h
      | str s =>
        cases hs : s.data with
        | nil => simp [crs_go, tildeElem, hs] at h
        | cons c cs =>
          simp only [crs_go, tildeElem, hs] at h
          have hv : v = if (if c = '~' then (-1 : Int) else 1) = 1 then -1 else 1 := by
            by_cases hc : c = '~' <;> simp [hc] at h ⊢ <;> omega
          have hkey : flatToks (Tok.str s :: ts2) = rank c :: (cs.map rank ++ 1 :: flatToks ts2) := by
            simp [flatToks, keyStr, hs]
          rw [flatToks_nil, hkey]
          simp only [cmpPad]
          by_cases hc : c = '~'
          · rw [if_pos ((rank_lt_one_iff c).mpr hc)]
            simp [hc] at hv
            omega
          · rw [if_neg (fun hlt => hc ((rank_lt_one_iff c).mp hlt))]
            simp [hc] at hv
            omega
  | cons t1 ts1 ih =>
    intro l2 v h
    cases l2 with
    | nil =>
      cases t1 with
      | num n => simp [crs_go, tildeElem] at h
      | str s =>
        cases hs : s.data with
        | nil => simp [crs_go, tildeElem, hs] at h
        | cons c cs =>
          simp only [crs_go, tildeElem, hs] at h
          have hv : v = if c = '~' then (-1 : Int) else 1 := by
            by_cases hc : c = '~' <;> simp [hc] at h ⊢ <;> omega
          have hkey : flatToks (Tok.str s :: ts1) = rank c :: (cs.map rank ++ 1 :: flatToks ts1) := by
            simp [flatToks, keyStr, hs]
          rw [flatToks_nil, hkey]
          simp only [cmpPad]
          by_cases hc : c = '~'
          · rw [if_pos ((rank_lt_one_iff c).mpr hc)]
            simp [hc] at hv
            omega
          · rw [if_neg (fun hlt => hc ((rank_lt_one_iff c).mp hlt))]
            simp [hc] at hv
            omega
    | cons t2 ts2 =>
      cases ht : cmpTok t1 t2 with
      | error m => simp [crs_go, ht] at h
      | ok cv =>
        simp only [crs_go, ht] at h
        by_cases hcv : cv = 0
        · subst hcv
          rw [if_pos rfl] at h
          have hrec := ih ts2 v h
          cases t1 with
          | num n1 =>
            cases t2 with
            | str s2 => simp [cmpTok] at ht
            | num n2 =>
              have hnn : n1 = n2 := by
                simp only [cmpTok] at ht
                split_ifs at ht with h1 h2 <;> first | omega | (injection ht with ht2; omega)
              subst hnn
              simp only [flatToks, cmpPad, lt_irrefl, if_false]
              simpa using hrec
          | str s1 =>
            cases t2 with
            | num n2 => simp [cmpTok] at ht
            | str s2 =>
              have hd : dstringcmp s1 s2 = .ok 0 := by simpa [cmpTok] using ht
              rw [dstringcmp_eq] at hd
              have hk : keyStr s1 = keyStr s2 :=
                cmpPad_eq_zero _ _ (by injection hd)
              simp only [flatToks, hk]
              have hassoc : ∀ (k f : List Nat), k ++ 1 :: f = (k ++ [1]) ++ f := by
                intro k f
                simp
              rw [hassoc (keyStr s2) (flatToks ts1), hassoc (keyStr s2) (flatToks ts2),
                cmpPad_append_left]
              exact hrec
        · rw [if_neg hcv] at h
          have hv : v = cv := by
            injection h with h2
            omega
          subst hv
          cases t1 with
          | num n1 =>
            cases t2 with
            | str s2 => simp [cmpTok] at ht
            | num n2 =>
              simp only [flatToks, cmpPad]
              simp only [cmpTok] at ht
              split_ifs at ht with h1 h2 <;>
                injection ht with ht2 <;>
                  split_ifs with g1 g2 <;> omega
          | str s1 =>
            cases t2 with
            | num n2 => simp [cmpTok] at ht
            | str s2 =>
              have hd : dstringcmp s1 s2 = .ok v := by simpa [cmpTok] using ht
              rw [dstringcmp_eq] at hd
              have hk : cmpPad (keyStr s1) (keyStr s2) = v := by injection hd
              simp only [flatToks]
              rw [cmpPad_sentinel _ _ _ _ (keyStr_ne_one s1) (keyStr_ne_one s2) (by omega)]
              exact hk

end Dpkg

namespace Dpkg

theorem crs_go_neg : ∀ (l1 l2 : List Tok) (v : Int), crs_go l1 l2 = .ok v →
    crs_go l2 l1 = .ok (-v) := by
  intro l1
  induction l1 with
  | nil =>
    intro l2 v h
    cases l2 with
    | nil => simp [crs_go] at h
    | cons t2 ts2 =>
      cases t2 with
      | num n => simp [crs_go, tildeElem] at h
      | str s =>
        cases hs : s.data with
        | nil => simp [crs_go, tildeElem, hs] at h
        | cons c cs =>
          simp only [crs_go, tildeElem, hs] at h ⊢
          by_cases hc : c = '~' <;> simp [hc] at h ⊢ <;> omega
  | cons t1 ts1 ih =>
    intro l2 v h
    cases l2 with
    | nil =>
      cases t1 with
      | num n => simp [crs_go, tildeElem] at h
      | str s =>
        cases hs : s.data with
        | nil => simp [crs_go, tildeElem, hs] at h
        | cons c cs =>
          simp only [crs_go, tildeElem, hs] at h ⊢
          by_cases hc : c = '~' <;> simp [hc] at h ⊢ <;> omega
    | cons t2 ts2 =>
      cases ht : cmpTok t1 t2 with
      | error m => simp [crs_go, ht] at h
      | ok cv =>
        have htr : cmpTok t2 t1 = .ok (-cv) := by
          cases t1 with
          | num n1 =>
            cases t2 with
            | str _ => simp [cmpTok] at ht
            | num n2 =>
              simp only [cmpTok] at ht ⊢
              injection ht with h3
              rw [Except.ok.injEq]
              split_ifs at h3 ⊢ <;> omega
          | str s1 =>
            cases t2 with
            | num _ => simp [cmpTok] at ht
            | str s2 =>
              simp only [cmpTok] at ht ⊢
              rw [dstringcmp_eq] at ht ⊢
              injection ht with h3
              rw [cmpPad_neg (keyStr s1) (keyStr s2), h3]
        simp only [crs_go, ht] at h
        simp only [crs_go, htr]
        by_cases hcv : cv = 0
        · subst hcv
          rw [if_pos rfl] at h
          simp only [neg_zero, if_pos rfl]
          exact ih ts2 v h
        · rw [if_neg hcv] at h
          have hv : v = cv := by injection h with h2; omega
          subst hv
          rw [if_neg (by omega : ¬ (-v : Int) = 0)]

theorem crs_eq (r1 r2 : String) (v : Int) (h : compare_revision_strings r1 r2 = .ok v) :
    cmpPad (rkey r1) (rkey r2) = v := by
  unfold compare_revision_strings at h
  by_cases e : r1 = r2
  · rw [if_pos e] at h
    have hv : v = 0 := by injection h with h2; omega
    subst e hv
    exact cmpPad_refl _
  · rw [if_neg e] at h
    by_cases el : listify r1.data = listify r2.data
    · rw [if_pos el] at h
      have hv : v = 0 := by injection h with h2; omega
      subst hv
      unfold rkey
      rw [el]
      exact cmpPad_refl _
    · rw [if_neg el] at h
      exact crs_go_eq _ _ v h

theorem crs_neg (r1 r2 : String) (v : Int) (h : compare_revision_strings r1 r2 = .ok v) :
    compare_revision_strings r2 r1 = .ok (-v) := by
  unfold compare_revision_strings at h ⊢
  by_cases e : r1 = r2
  · rw [if_pos e] at h
    have hv : v = 0 := by injection h with h2; omega
    subst hv
    rw [if_pos e.symm]
    norm_num
  · rw [if_neg e] at h
    rw [if_neg (fun h2 => e h2.symm)]
    by_cases el : listify r1.data = listify r2.data
    · rw [if_pos el] at h
      have hv : v = 0 := by injection h with h2; omega
      subst hv
      rw [if_pos el.symm]
      norm_num
    · rw [if_neg el] at h
      rw [if_neg (fun h2 => el h2.symm)]
      exact crs_go_neg _ _ v h

end Dpkg

namespace Dpkg

theorem takeWhile_ne_append {x : Char} : ∀ (pre rest : List Char), x ∉ pre →
    (pre ++ x :: rest).takeWhile (fun c => c ≠ x) = pre ∧
    (pre ++ x :: rest).dropWhile (fun c => c ≠ x) = x :: rest := by
  intro pre
  induction pre with
  | nil =>
    intro rest _
    rw [List.nil_append]
    constructor
    · rw [List.takeWhile_cons_of_neg (by simp)]
    · rw [List.dropWhile_cons_of_neg (by simp)]
  | cons c pre' ih =>
    intro rest h
    have hcx : c ≠ x := fun he => h (by simp [he])
    have hrec := ih rest (fun hm => h (List.mem_cons_of_mem c hm))
    rw [List.cons_append]
    constructor
    · rw [List.takeWhile_cons_of_pos (by simp [hcx]), hrec.1]
    · rw [List.dropWhile_cons_of_pos (by simp [hcx]), hrec.2]

theorem mem_split_first {x : Char} : ∀ (l : List Char), x ∈ l →
    ∃ pre rest, l = pre ++ x :: rest ∧ x ∉ pre := by
  intro l
  induction l with
  | nil => simp
  | cons c cs ih =>
    intro h
    by_cases hc : c = x
    · exact ⟨[], cs, by rw [hc]; rfl, by simp⟩
    · have hx : x ∈ cs := by
        rcases List.mem_cons.mp h with h1 | h1
        · exact absurd h1.symm hc
        · exact h1
      obtain ⟨pre, rest, h1, h2⟩ := ih hx
      refine ⟨c :: pre, rest, by rw [List.cons_append, h1], ?_⟩
      intro hm
      rcases List.mem_cons.mp hm with h3 | h3
      · exact hc h3.symm
      · exact h2 h3

theorem get_epoch_no_colon (s : String) (h : ':' ∉ s.data) : get_epoch s = .ok (0, s) := by
  unfold get_epoch
  rw [if_neg h]

theorem get_epoch_colon (s : String) (pre rest : List Char)
    (hs : s.data = pre ++ ':' :: rest) (hpre : ':' ∉ pre) :
    get_epoch s =
      (match pyInt pre with
       | some e => .ok (e, (⟨rest⟩ : String))
       | none => .error epochErr) := by
  have hmem : ':' ∈ s.data := by rw [hs]; simp
  have hsplit := takeWhile_ne_append pre rest hpre
  unfold get_epoch
  rw [if_pos hmem, hs, hsplit.1, hsplit.2]
  rfl

theorem get_upstream_no_dash (s : String) (h : '-' ∉ s.data) : get_upstream s = (s, "0") := by
  unfold get_upstream
  rw [if_neg h]

theorem get_upstream_dash (s : String) (pre post : List Char)
    (hs : s.data = pre ++ '-' :: post) (hpost : '-' ∉ post) :
    get_upstream s = (⟨pre⟩, ⟨post⟩) := by
  have hmem : '-' ∈ s.data := by rw [hs]; simp
  have hrev : s.data.reverse = post.reverse ++ '-' :: pre.reverse := by
    rw [hs]
    simp
  have hnotin : '-' ∉ post.reverse := by simpa using hpost
  have hsplit := takeWhile_ne_append post.reverse pre.reverse hnotin
  unfold get_upstream
  rw [if_pos hmem, hrev, hsplit.1, hsplit.2]
  simp

theorem compare_versions_eq (a b : String) (hne : a ≠ b)
    (e1 : Int) (u1 d1 : String) (e2 : Int) (u2 d2 : String)
    (h1 : split_full_version a = .ok (e1, u1, d1))
    (h2 : split_full_version b = .ok (e2, u2, d2)) :
    compare_versions a b =
      if e1 < e2 then .ok (-1)
      else if e2 < e1 then .ok 1
      else
        match compare_revision_strings u1 u2 with
        | .error m => .error m
        | .ok ur =>
          if ur ≠ 0 then .ok ur
          else
            match compare_revision_strings d1 d2 with
            | .error m => .error m
            | .ok dr => if dr ≠ 0 then .ok dr else .ok 0 := by
  unfold compare_versions
  rw [if_neg hne]
  simp only [h1, h2]

theorem cmp_refl (v : String) : compare_versions v v = .ok 0 := by
  unfold compare_versions
  rw [if_pos rfl]

theorem cmp_ok_split (a b : String) (r : Int) (hne : a ≠ b)
    (h : compare_versions a b = .ok r) :
    ∃ e1 u1 d1 e2 u2 d2, split_full_version a = .ok (e1, u1, d1) ∧
      split_full_version b = .ok (e2, u2, d2) := by
  unfold compare_versions at h
  rw [if_neg hne] at h
  cases hsa : split_full_version a with
  | error m =>
    simp only [hsa] at h
    exact Except.noConfusion h
  | ok t1 =>
    obtain ⟨e1, u1, d1⟩ := t1
    cases hsb : split_full_version b with
    | error m =>
      simp only [hsa, hsb] at h
      exact Except.noConfusion h
    | ok t2 =>
      obtain ⟨e2, u2, d2⟩ := t2
      exact ⟨e1, u1, d1, e2, u2, d2, rfl, rfl⟩

theorem cmp_ok_cases (a b : String) (r : Int) (hne : a ≠ b)
    (e1 : Int) (u1 d1 : String) (e2 : Int) (u2 d2 : String)
    (h1 : split_full_version a = .ok (e1, u1, d1))
    (h2 : split_full_version b = .ok (e2, u2, d2))
    (h : compare_versions a b = .ok r) :
    (e1 < e2 ∧ r = -1) ∨ (e2 < e1 ∧ r = 1) ∨
    (e1 = e2 ∧ ∃ ur, compare_revision_strings u1 u2 = .ok ur ∧
      ((ur ≠ 0 ∧ r = ur) ∨
       (ur = 0 ∧ ∃ dr, compare_revision_strings d1 d2 = .ok dr ∧ r = dr))) := by
  rw [compare_versions_eq a b hne e1 u1 d1 e2 u2 d2 h1 h2] at h
  rcases lt_trichotomy e1 e2 with he | he | he
  · rw [if_pos he] at h
    exact Or.inl ⟨he, by injection h with h2; omega⟩
  · rw [if_neg (by omega), if_neg (by omega)] at h
    refine Or.inr (Or.inr ⟨he, ?_⟩)
    cases hcu : compare_revision_strings u1 u2 with
    | error m =>
      simp only [hcu] at h
      exact Except.noConfusion h
    | ok ur =>
      simp only [hcu] at h
      refine ⟨ur, rfl, ?_⟩
      by_cases hur : ur = 0
      · rw [if_neg (by omega)] at h
        refine Or.inr ⟨hur, ?_⟩
        cases hcd : compare_revision_strings d1 d2 with
        | error m =>
          simp only [hcd] at h
          exact Except.noConfusion h
        | ok dr =>
          simp only [hcd] at h
          refine ⟨dr, rfl, ?_⟩
          by_cases hdr : dr = 0
          · rw [if_neg (by omega)] at h
            injection h with h2
            omega
          · rw [if_pos hdr] at h
            injection h with h2
            omega
      · rw [if_pos hur] at h
        injection h with h2
        exact Or.inl ⟨hur, h2.symm⟩
  · rw [if_neg (by omega), if_pos he] at h
    exact Or.inr (Or.inl ⟨he, by injection h with h2; omega⟩)

end Dpkg

namespace Dpkg

theorem cmp_neg (a b : String) (r : Int) (h : compare_versions a b = .ok r) :
    compare_versions b a = .ok (-r) := by
  by_cases hab : a = b
  · subst hab
    rw [cmp_refl] at h
    have hr : r = 0 := by injection h with h2; omega
    subst hr
    rw [cmp_refl]
    norm_num
  · obtain ⟨e1, u1, d1, e2, u2, d2, hsa, hsb⟩ := cmp_ok_split a b r hab h
    have hc := cmp_ok_cases a b r hab e1 u1 d1 e2 u2 d2 hsa hsb h
    have hba : b ≠ a := fun x => hab x.symm
    rw [compare_versions_eq b a hba e2 u2 d2 e1 u1 d1 hsb hsa]
    rcases hc with ⟨he, hr⟩ | ⟨he, hr⟩ | ⟨he, ur, hcu, hrest⟩
    · rw [if_neg (by omega), if_pos he]
      subst hr
      norm_num
    · rw [if_pos he]
      subst hr
      norm_num
    · rw [if_neg (by omega), if_neg (by omega)]
      have hcu' := crs_neg u1 u2 ur hcu
      simp only [hcu']
      rcases hrest with ⟨hur, hr⟩ | ⟨hur, dr, hcd, hr⟩
      · rw [if_pos (show ¬ (-ur) = 0 by omega)]
        subst hr
        rfl
      · rw [if_neg (show ¬ ¬ (-ur) = 0 by omega)]
        have hcd' := crs_neg d1 d2 dr hcd
        simp only [hcd']
        by_cases hdr : dr = 0
        · rw [if_neg (show ¬ ¬ (-dr) = 0 by omega)]
          subst hr
          rw [hdr]
          norm_num
        · rw [if_pos (show ¬ (-dr) = 0 by omega)]
          subst hr
          rfl

theorem cmp_trans_aux (a b c : String) (ra rb rc : Int)
    (hab : compare_versions a b = .ok ra)
    (hbc : compare_versions b c = .ok rb)
    (hac : compare_versions a c = .ok rc)
    (hra : ra ≤ 0) (hrb : rb ≤ 0) : rc ≤ 0 := by
  by_cases heab : a = b
  · subst heab
    have : rc = rb := Except.ok.inj (hac.symm.trans hbc)
    omega
  by_cases hebc : b = c
  · subst hebc
    have : rc = ra := Except.ok.inj (hac.symm.trans hab)
    omega
  by_cases heac : a = c
  · subst heac
    rw [cmp_refl] at hac
    have : rc = 0 := by injection hac with h2; omega
    omega
  obtain ⟨e1, u1, d1, e2, u2, d2, hsa, hsb⟩ := cmp_ok_split a b ra heab hab
  obtain ⟨e2', u2', d2', e3, u3, d3, hsb', hsc⟩ := cmp_ok_split b c rb hebc hbc
  rw [hsb] at hsb'
  injection hsb' with hp
  rw [Prod.mk.injEq, Prod.mk.injEq] at hp
  obtain ⟨hq1, hq2, hq3⟩ := hp
  subst hq1 hq2 hq3
  have hCab := cmp_ok_cases a b ra heab e1 u1 d1 e2 u2 d2 hsa hsb hab
  have hCbc := cmp_ok_cases b c rb hebc e2 u2 d2 e3 u3 d3 hsb hsc hbc
  have hCac := cmp_ok_cases a c rc heac e1 u1 d1 e3 u3 d3 hsa hsc hac
  have he12 : e1 ≤ e2 := by
    rcases hCab with ⟨he, _⟩ | ⟨he, hr⟩ | ⟨he, _⟩ <;> omega
  have he23 : e2 ≤ e3 := by
    rcases hCbc with ⟨he, _⟩ | ⟨he, hr⟩ | ⟨he, _⟩ <;> omega
  rcases hCac with ⟨he, hr⟩ | ⟨he, hr⟩ | ⟨he, ur13, hcu13, hrest13⟩
  · omega
  · omega
  · have he2 : e1 = e2 := by omega
    have he3 : e2 = e3 := by omega
    have hu12 : ∃ ur, compare_revision_strings u1 u2 = .ok ur ∧ ur ≤ 0 ∧
        (ur = 0 → ∃ dr, compare_revision_strings d1 d2 = .ok dr ∧ dr ≤ 0) := by
      rcases hCab with ⟨hlt, _⟩ | ⟨hlt, _⟩ | ⟨_, ur, hcu, hrest⟩
      · omega
      · omega
      · rcases hrest with ⟨hur, hr'⟩ | ⟨hur, dr, hcd, hr'⟩
        · exact ⟨ur, hcu, by omega, fun h0 => absurd h0 hur⟩
        · exact ⟨ur, hcu, by omega, fun _ => ⟨dr, hcd, by omega⟩⟩
    have hu23 : ∃ ur, compare_revision_strings u2 u3 = .ok ur ∧ ur ≤ 0 ∧
        (ur = 0 → ∃ dr, compare_revision_strings d2 d3 = .ok dr ∧ dr ≤ 0) := by
      rcases hCbc with ⟨hlt, _⟩ | ⟨hlt, _⟩ | ⟨_, ur, hcu, hrest⟩
      · omega
      · omega
      · rcases hrest with ⟨hur, hr'⟩ | ⟨hur, dr, hcd, hr'⟩
        · exact ⟨ur, hcu, by omega, fun h0 => absurd h0 hur⟩
        · exact ⟨ur, hcu, by omega, fun _ => ⟨dr, hcd, by omega⟩⟩
    obtain ⟨urab, hcuab, hurab_le, hdab⟩ := hu12
    obtain ⟨urbc, hcubc, hurbc_le, hdbc⟩ := hu23
    have Sab := crs_eq u1 u2 urab hcuab
    have Sbc := crs_eq u2 u3 urbc hcubc
    have Sac := crs_eq u1 u3 ur13 hcu13
    have hSac_le : cmpPad (rkey u1) (rkey u3) ≤ 0 :=
      cmpPad_trans_le (rkey u1) (rkey u2) (rkey u3) (by omega) (by omega)
    rcases hrest13 with ⟨hur13, hr13⟩ | ⟨hur13, dr13, hcd13, hr13⟩
    · omega
    · have hurab0 : urab = 0 := by
        by_contra hne0
        have : cmpPad (rkey u1) (rkey u3) < 0 :=
          cmpPad_trans_lt_le (rkey u1) (rkey u2) (rkey u3) (by omega) (by omega)
        omega
      have hurbc0 : urbc = 0 := by
        by_contra hne0
        have : cmpPad (rkey u1) (rkey u3) < 0 :=
          cmpPad_trans_le_lt (rkey u1) (rkey u2) (rkey u3) (by omega) (by omega)
        omega
      obtain ⟨drab, hcdab, hdrab_le⟩ := hdab hurab0
      obtain ⟨drbc, hcdbc, hdrbc_le⟩ := hdbc hurbc0
      have Dab := crs_eq d1 d2 drab hcdab
      have Dbc := crs_eq d2 d3 drbc hcdbc
      have Dac := crs_eq d1 d3 dr13 hcd13
      have hDac_le : cmpPad (rkey d1) (rkey d3) ≤ 0 :=
        cmpPad_trans_le (rkey d1) (rkey d2) (rkey d3) (by omega) (by omega)
      omega

end Dpkg

namespace Dpkg

/-! Helpers for the prefix/tilde and token-tail rules. -/

theorem cmpTok_refl (t : Tok) : cmpTok t t = .ok 0 := by
  cases t with
  | num n => simp [cmpTok]
  | str s =>
    simp only [cmpTok]
    unfold dstringcmp
    rw [if_pos rfl]

theorem crs_refl (r : String) : compare_revision_strings r r = .ok 0 := by
  unfold compare_revision_strings
  rw [if_pos rfl]

theorem crs_go_longer : ∀ (l : List Tok) (t : Tok) (ts : List Tok) (v : Int),
    tildeElem t = .ok v → crs_go (l ++ t :: ts) l = .ok v := by
  intro l
  induction l with
  | nil =>
    intro t ts v h
    simp only [List.nil_append, crs_go]
    cases t with
    | num n => simp [tildeElem] at h
    | str s => exact h
  | cons t0 l' ih =>
    intro t ts v h
    simp only [List.cons_append, crs_go, cmpTok_refl t0, if_pos rfl]
    exact ih t ts v h

theorem crs_go_shorter : ∀ (l : List Tok) (t : Tok) (ts : List Tok) (v : Int),
    tildeElem t = .ok v → crs_go l (l ++ t :: ts) = .ok (if v = 1 then -1 else 1) := by
  intro l
  induction l with
  | nil =>
    intro t ts v h
    simp only [List.nil_append, crs_go, h]
  | cons t0 l' ih =>
    intro t ts v h
    simp only [List.cons_append, crs_go, cmpTok_refl t0, if_pos rfl]
    exact ih t ts v h

theorem tildeElem_cons (c : Char) (cs : List Char) :
    tildeElem (Tok.str ⟨c :: cs⟩) = .ok (if c = '~' then -1 else 1) := rfl

theorem listify_longer_ne (r1 r2 : String) (t : Tok) (ts : List Tok)
    (h : listify r1.data = listify r2.data ++ t :: ts) :
    listify r1.data ≠ listify r2.data ∧ r1 ≠ r2 := by
  constructor
  · rw [h]
    intro h2
    have := congrArg List.length h2
    simp at this
  · intro h2
    rw [h2] at h
    have := congrArg List.length h
    simp at this

theorem crs_longer (r1 r2 : String) (c : Char) (cs : List Char) (ts : List Tok)
    (h : listify r1.data = listify r2.data ++ Tok.str ⟨c :: cs⟩ :: ts) :
    compare_revision_strings r1 r2 = .ok (if c = '~' then -1 else 1) := by
  obtain ⟨hl, hs⟩ := listify_longer_ne r1 r2 _ _ h
  unfold compare_revision_strings
  rw [if_neg hs, if_neg hl, h]
  exact crs_go_longer _ _ _ _ (tildeElem_cons c cs)

theorem crs_shorter (r1 r2 : String) (c : Char) (cs : List Char) (ts : List Tok)
    (h : listify r1.data = listify r2.data ++ Tok.str ⟨c :: cs⟩ :: ts) :
    compare_revision_strings r2 r1 = .ok (if c = '~' then 1 else -1) := by
  obtain ⟨hl, hs⟩ := listify_longer_ne r1 r2 _ _ h
  unfold compare_revision_strings
  rw [if_neg (fun h2 => hs h2.symm), if_neg (fun h2 => hl h2.symm), h]
  have := crs_go_shorter (listify r2.data) (Tok.str ⟨c :: cs⟩) ts
    (if c = '~' then -1 else 1) (tildeElem_cons c cs)
  rw [this]
  by_cases hc : c = '~' <;> simp [hc]

theorem dsc_longer (p rest : List Char) (c : Char) :
    dstringcmp ⟨p ++ c :: rest⟩ ⟨p⟩ = .ok (if c = '~' then -1 else 1) := by
  rw [dstringcmp_eq]
  congr 1
  have h1 : keyStr ⟨p ++ c :: rest⟩ = (p.map rank) ++ rank c :: rest.map rank := by
    simp [keyStr]
  have h2 : keyStr ⟨p⟩ = p.map rank := rfl
  rw [h1, h2]
  calc cmpPad (p.map rank ++ rank c :: rest.map rank) (p.map rank)
      = cmpPad (p.map rank ++ rank c :: rest.map rank) (p.map rank ++ []) := by
        rw [List.append_nil]
    _ = cmpPad (rank c :: rest.map rank) [] := cmpPad_append_left _ _ _
    _ = if c = '~' then -1 else 1 := by
        simp only [cmpPad]
        by_cases hc : c = '~'
        · rw [if_pos ((rank_lt_one_iff c).mpr hc), if_pos hc]
        · rw [if_neg (fun h => hc ((rank_lt_one_iff c).mp h)), if_neg hc]

theorem dsc_shorter (p rest : List Char) (c : Char) :
    dstringcmp ⟨p⟩ ⟨p ++ c :: rest⟩ = .ok (if c = '~' then 1 else -1) := by
  rw [dstringcmp_eq]
  congr 1
  have h1 : keyStr ⟨p ++ c :: rest⟩ = (p.map rank) ++ rank c :: rest.map rank := by
    simp [keyStr]
  have h2 : keyStr ⟨p⟩ = p.map rank := rfl
  rw [h1, h2]
  calc cmpPad (p.map rank) (p.map rank ++ rank c :: rest.map rank)
      = cmpPad (p.map rank ++ []) (p.map rank ++ rank c :: rest.map rank) := by
        rw [List.append_nil]
    _ = cmpPad [] (rank c :: rest.map rank) := cmpPad_append_left _ _ _
    _ = if c = '~' then 1 else -1 := by
        simp only [cmpPad]
        by_cases hc : c = '~'
        · rw [if_pos ((rank_lt_one_iff c).mpr hc), if_pos hc]
        · rw [if_neg (fun h => hc ((rank_lt_one_iff c).mp h)), if_neg hc]

theorem dsc_go_after (p : List Char) (ca cb : Char) (as bs : List Char) :
    dsc_go (p ++ ca :: as) (p ++ cb :: bs) = dsc_go (ca :: as) (cb :: bs) := by
  induction p with
  | nil => rfl
  | cons c p' ih =>
    simp only [List.cons_append, dsc_go, if_pos rfl]
    exact ih

end Dpkg

namespace Dpkg

theorem dsc_head_ne (ca cb : Char) (as bs : List Char) (hne : ca ≠ cb) :
    dsc_go (ca :: as) (cb :: bs) =
      .ok (if ca = '~' then -1
           else if cb = '~' then 1
           else if ca.isAlpha && !cb.isAlpha then -1
           else if !ca.isAlpha && cb.isAlpha then 1
           else if cb.toNat < ca.toNat then 1 else -1) := by
  simp only [dsc_go, if_neg hne]
  by_cases h1 : ca = '~'
  · rw [if_pos h1, if_pos h1]
  rw [if_neg h1, if_neg h1]
  by_cases h2 : cb = '~'
  · rw [if_pos h2, if_pos h2]
  rw [if_neg h2, if_neg h2]
  by_cases h3 : (ca.isAlpha && !cb.isAlpha) = true
  · rw [if_pos h3, if_pos h3]
  rw [if_neg h3, if_neg h3]
  by_cases h4 : (!ca.isAlpha && cb.isAlpha) = true
  · rw [if_pos h4, if_pos h4]
  rw [if_neg h4, if_neg h4]
  by_cases h5 : cb.toNat < ca.toNat
  · rw [if_pos h5, if_pos h5]
  rw [if_neg h5, if_neg h5]
  by_cases h6 : ca.toNat < cb.toNat
  · rw [if_pos h6]
  · exact absurd (char_toNat_inj (by omega)) hne

theorem string_mk_ne_of_head_ne (p : List Char) (ca cb : Char) (as bs : List Char)
    (hne : ca ≠ cb) : (⟨p ++ ca :: as⟩ : String) ≠ ⟨p ++ cb :: bs⟩ := by
  intro h
  have hd : p ++ ca :: as = p ++ cb :: bs := congrArg String.data h
  have h2 := congrArg (List.drop p.length) hd
  rw [List.drop_left, List.drop_left] at h2
  exact hne (by injection h2)

theorem check_headers_of_mem (ign : Bool) (keys : List String) :
    ∀ reqs : List String, (∀ r ∈ reqs, r ∈ keys) → check_headers ign keys reqs = .ok () := by
  intro reqs
  induction reqs with
  | nil => intro _; rfl
  | cons q rest ih =>
    intro h
    simp only [check_headers, if_pos (h q (by simp))]
    exact ih (fun r hr => h r (by simp [hr]))

theorem check_headers_ignore (keys : List String) :
    ∀ reqs : List String, check_headers true keys reqs = .ok () := by
  intro reqs
  induction reqs with
  | nil => rfl
  | cons q rest ih =>
    by_cases hq : q ∈ keys
    · simp only [check_headers, if_pos hq]
      exact ih
    · simp only [check_headers, if_neg hq, if_pos rfl]
      exact ih

theorem check_headers_missing (keys : List String) :
    ∀ (reqs : List String) (r : String), r ∈ reqs → r ∉ keys →
      ∃ r2, r2 ∈ reqs ∧ r2 ∉ keys ∧
        check_headers false keys reqs = .error (missingHeaderErr r2) := by
  intro reqs
  induction reqs with
  | nil =>
    intro r hr _
    simp at hr
  | cons q rest ih =>
    intro r hr hk
    by_cases hq : q ∈ keys
    · have hrr : r ∈ rest := by
        rcases List.mem_cons.mp hr with h1 | h1
        · subst h1
          exact absurd hq hk
        · exact h1
      obtain ⟨r2, h1, h2, h3⟩ := ih r hrr hk
      refine ⟨r2, by simp [h1], h2, ?_⟩
      simp only [check_headers, if_pos hq]
      exact h3
    · refine ⟨q, by simp, hq, ?_⟩
      simp [check_headers, if_neg hq]

/-- C2: in `dstringcmp`, when one string is a strict prefix of the other the
longer string is greater unless its next character is `~`, in which case it
is lesser; the same tilde exception holds at the revision-token level in
`compare_revision_strings` for a trailing extra string token; consequently
`compare_versions "1.0~rc1" "1.0" = -1` and
`compare_versions "1.0~~" "1.0~" = -1`. -/
theorem claim_C2 :
    (∀ (p rest : List Char) (c : Char),
      dstringcmp ⟨p ++ c :: rest⟩ ⟨p⟩ = .ok (if c = '~' then -1 else 1) ∧
      dstringcmp ⟨p⟩ ⟨p ++ c :: rest⟩ = .ok (if c = '~' then 1 else -1)) ∧
    (∀ (r1 r2 : String) (c : Char) (cs : List Char) (ts : List Tok),
      listify r1.data = listify r2.data ++ Tok.str ⟨c :: cs⟩ :: ts →
      compare_revision_strings r1 r2 = .ok (if c = '~' then -1 else 1) ∧
      compare_revision_strings r2 r1 = .ok (if c = '~' then 1 else -1)) ∧
    compare_versions "1.0~rc1" "1.0" = .ok (-1) ∧
    compare_versions "1.0~~" "1.0~" = .ok (-1) := by
  refine ⟨fun p rest c => ⟨dsc_longer p rest c, dsc_shorter p rest c⟩,
    fun r1 r2 c cs ts h => ⟨crs_longer r1 r2 c cs ts h, crs_shorter r1 r2 c cs ts h⟩,
    rfl, rfl⟩

/-- C2 witness: the general prefix rules applied at concrete inputs. -/
theorem claim_C2_witness :
    dstringcmp "ab~" "ab" = .ok (-1) ∧
    compare_revision_strings "1.0~rc1" "1.0" = .ok (-1) := by
  constructor
  · have h := (claim_C2.1 ['a', 'b'] [] '~').1
    simpa using h
  · have h := (claim_C2.2.1 "1.0~rc1" "1.0" '~' ['r', 'c'] [Tok.num 1] (by decide)).1
    simpa using h

/-- C3 counterexample: the spec asserts `compare_versions "1:0" "2.0" < 0`,
but the code returns 1 (the epoch-1 version wins, so the result is
positive). -/
theorem claim_C3_counterexample :
    compare_versions "1:0" "2.0" = .ok 1 ∧
    ¬ (∃ r, compare_versions "1:0" "2.0" = .ok r ∧ r < 0) := by
  refine ⟨rfl, ?_⟩
  rintro ⟨r, hr, hlt⟩
  have h1 : compare_versions "1:0" "2.0" = .ok 1 := rfl
  have := Except.ok.inj (h1.symm.trans hr)
  omega

/-- C3 (amended): `compare_versions` compares epochs numerically first and
short-circuits on a difference, so `compare_versions "1:0" "2.0" = 1 > 0`
(any epoch-1 version beats any epoch-0 version), and
`compare_versions "1:1.0" "2.0" = 1`. -/
theorem claim_C3 :
    (∀ (v1 v2 : String) (e1 : Int) (u1 d1 : String) (e2 : Int) (u2 d2 : String),
      split_full_version v1 = .ok (e1, u1, d1) →
      split_full_version v2 = .ok (e2, u2, d2) →
      (e1 < e2 → compare_versions v1 v2 = .ok (-1)) ∧
      (e2 < e1 → compare_versions v1 v2 = .ok 1)) ∧
    compare_versions "1:0" "2.0" = .ok 1 ∧
    compare_versions "1:1.0" "2.0" = .ok 1 := by
  refine ⟨fun v1 v2 e1 u1 d1 e2 u2 d2 h1 h2 => ?_, rfl, rfl⟩
  have hne : e1 ≠ e2 → v1 ≠ v2 := by
    intro hee hv
    subst hv
    have := Except.ok.inj (h1.symm.trans h2)
    rw [Prod.mk.injEq, Prod.mk.injEq] at this
    exact hee this.1
  constructor
  · intro he
    rw [compare_versions_eq v1 v2 (hne (by omega)) e1 u1 d1 e2 u2 d2 h1 h2, if_pos he]
  · intro he
    rw [compare_versions_eq v1 v2 (hne (by omega)) e1 u1 d1 e2 u2 d2 h1 h2,
      if_neg (by omega), if_pos he]

/-- C3 witness: the epoch short-circuit rule applied at concrete inputs. -/
theorem claim_C3_witness : compare_versions "2.0" "1:1.0" = .ok (-1) :=
  (claim_C3.1 "2.0" "1:1.0" 0 "2.0" "0" 1 "1.0" "0" rfl rfl).1 (by norm_num)

/-- C4: equal strings short-circuit to 0 (for every string, well-formed or
not), and `compare_versions` is antisymmetric wherever it returns a value:
`compare_versions a b = .ok r` implies `compare_versions b a = .ok (-r)`. -/
theorem claim_C4 :
    (∀ v : String, compare_versions v v = .ok 0) ∧
    (∀ (a b : String) (r : Int),
      compare_versions a b = .ok r → compare_versions b a = .ok (-r)) :=
  ⟨cmp_refl, cmp_neg⟩

/-- C4 witness: antisymmetry applied at a concrete pair. -/
theorem claim_C4_witness : compare_versions "1.0" "1.0~" = .ok 1 := by
  have h := claim_C4.2 "1.0~" "1.0" (-1) rfl
  simpa using h

/-- C5: transitivity of `compare_versions` on its domain of definition: if
`compare_versions a b ≤ 0` and `compare_versions b c ≤ 0` and
`compare_versions a c` is defined, then `compare_versions a c ≤ 0`. -/
theorem claim_C5 : ∀ (a b c : String) (ra rb rc : Int),
    compare_versions a b = .ok ra → compare_versions b c = .ok rb →
    compare_versions a c = .ok rc → ra ≤ 0 → rb ≤ 0 → rc ≤ 0 :=
  fun a b c ra rb rc hab hbc hac hra hrb =>
    cmp_trans_aux a b c ra rb rc hab hbc hac hra hrb

/-- C5 witness: transitivity applied at a concrete chain. -/
theorem claim_C5_witness : (-1 : Int) ≤ 0 :=
  claim_C5 "1.0~" "1.0" "1.1" (-1) (-1) (-1) rfl rfl rfl (by norm_num) (by norm_num)

/-- C7: at the first differing position `dstringcmp` sorts `~` below
everything, letters before non-letters, and otherwise by raw codepoint;
and `compare_versions "1.0a" "1.0." = -1`. -/
theorem claim_C7 :
    (∀ (p as bs : List Char) (ca cb : Char), ca ≠ cb →
      dstringcmp ⟨p ++ ca :: as⟩ ⟨p ++ cb :: bs⟩ =
        .ok (if ca = '~' then -1
             else if cb = '~' then 1
             else if ca.isAlpha && !cb.isAlpha then -1
             else if !ca.isAlpha && cb.isAlpha then 1
             else if cb.toNat < ca.toNat then 1 else -1)) ∧
    compare_versions "1.0a" "1.0." = .ok (-1) := by
  refine ⟨fun p as bs ca cb hne => ?_, rfl⟩
  unfold dstringcmp
  rw [if_neg (string_mk_ne_of_head_ne p ca cb as bs hne)]
  show dsc_go (p ++ ca :: as) (p ++ cb :: bs) = _
  rw [dsc_go_after, dsc_head_ne ca cb as bs hne]

/-- C7 witness: the first-difference rule applied at a concrete input. -/
theorem claim_C7_witness : dstringcmp "1.0a" "1.0." = .ok (-1) := by
  have h := claim_C7.1 ['1', '.', '0'] [] [] 'a' '.' (by decide)
  simpa using h

/-- C8: the control archive is located by checking `control.tar.gz`, then
`control.tar.xz`, then `control.tar.zst`, first match winning, and
extraction fails with the missing-control-archive error when none is
present. -/
theorem claim_C8 : ∀ names : List String,
    ("control.tar.gz" ∈ names → read_archive names = .ok .gz) ∧
    ("control.tar.gz" ∉ names → "control.tar.xz" ∈ names →
      read_archive names = .ok .xz) ∧
    ("control.tar.gz" ∉ names → "control.tar.xz" ∉ names →
      "control.tar.zst" ∈ names → read_archive names = .ok .zst) ∧
    ("control.tar.gz" ∉ names → "control.tar.xz" ∉ names →
      "control.tar.zst" ∉ names → read_archive names = .error missingControlErr) := by
  intro names
  refine ⟨fun h1 => ?_, fun h1 h2 => ?_, fun h1 h2 h3 => ?_, fun h1 h2 h3 => ?_⟩
  · unfold read_archive
    rw [if_pos h1]
  · unfold read_archive
    rw [if_neg h1, if_pos h2]
  · unfold read_archive
    rw [if_neg h1, if_neg h2, if_pos h3]
  · unfold read_archive
    rw [if_neg h1, if_neg h2, if_neg h3]

/-- C8 witness: priority of `control.tar.gz` over a later variant, and the
failure case, at concrete member lists. -/
theorem claim_C8_witness :
    read_archive ["debian-binary", "control.tar.zst", "control.tar.gz"] = .ok .gz ∧
    read_archive ["debian-binary", "data.tar.gz"] = .error missingControlErr := by
  constructor
  · exact (claim_C8 ["debian-binary", "control.tar.zst", "control.tar.gz"]).1 (by decide)
  · exact (claim_C8 ["debian-binary", "data.tar.gz"]).2.2.2 (by decide) (by decide) (by decide)

/-- C9: after extraction the lowercased header names are checked against the
three required headers; a missing one raises the missing-header error naming
an absent key when `ignore_missing` is disabled, and with it enabled the
header mapping is returned unchanged (so without the missing key). -/
theorem claim_C9 : ∀ (ign : Bool) (headers : List (String × String)),
    ((∀ req ∈ REQUIRED_HEADERS, req ∈ (headers.map Prod.fst).map pyLower) →
      process_headers ign headers = .ok headers) ∧
    (ign = true → process_headers ign headers = .ok headers) ∧
    (ign = false → ∀ req ∈ REQUIRED_HEADERS,
      req ∉ (headers.map Prod.fst).map pyLower →
      ∃ req2, req2 ∈ REQUIRED_HEADERS ∧
        req2 ∉ (headers.map Prod.fst).map pyLower ∧
        process_headers ign headers = .error (missingHeaderErr req2)) := by
  intro ign headers
  refine ⟨fun h => ?_, fun h => ?_, fun h req hmem hnot => ?_⟩
  · unfold process_headers
    rw [check_headers_of_mem ign _ REQUIRED_HEADERS h]
  · subst h
    unfold process_headers
    rw [check_headers_ignore _ REQUIRED_HEADERS]
  · subst h
    obtain ⟨r2, h1, h2, h3⟩ :=
      check_headers_missing ((headers.map Prod.fst).map pyLower)
        REQUIRED_HEADERS req hmem hnot
    refine ⟨r2, h1, h2, ?_⟩
    unfold process_headers
    rw [h3]

/-- C9 witness: the missing-`architecture` scenario with tolerance off and
on, at a concrete header list. -/
theorem claim_C9_witness :
    process_headers false [("Package", "foo"), ("Version", "1.0")] =
      .error (missingHeaderErr "architecture") ∧
    process_headers true [("Package", "foo"), ("Version", "1.0")] =
      .ok [("Package", "foo"), ("Version", "1.0")] := by
  constructor
  · obtain ⟨r2, h1, h2, h3⟩ :=
      (claim_C9 false [("Package", "foo"), ("Version", "1.0")]).2.2 rfl
        "architecture" (by decide) (by decide)
    have hr2 : r2 = "architecture" := by
      simp only [REQUIRED_HEADERS, List.mem_cons, List.not_mem_nil, or_false] at h1
      rcases h1 with rfl | rfl | rfl
      · exact absurd (by decide) h2
      · exact absurd (by decide) h2
      · rfl
    rw [hr2] at h3
    exact h3
  · exact (claim_C9 true [("Package", "foo"), ("Version", "1.0")]).2.1 rfl

end Dpkg

namespace Dpkg

theorem split_via (s : String) (e : Int) (rest : String) (h : get_epoch s = .ok (e, rest)) :
    split_full_version s = .ok (e, (get_upstream rest).1, (get_upstream rest).2) := by
  rcases hu : get_upstream rest with ⟨u, d⟩
  simp only [split_full_version, h, hu]

/-- C1 counterexample: the claim requires the text before the first `:` to
be a `[0-9]+` non-negative epoch on pain of `MalformedVersion`, but the code
accepts the non-`[0-9]+` prefix `-1` and returns a negative epoch instead of
raising. -/
theorem claim_C1_counterexample :
    (':' ∈ "-1:1.0".data) ∧
    ¬ (("-1:1.0".data.takeWhile (fun c => c ≠ ':')) ≠ [] ∧
       ∀ c ∈ "-1:1.0".data.takeWhile (fun c => c ≠ ':'), c.isDigit = true) ∧
    split_full_version "-1:1.0" = .ok (-1, "1.0", "0") :=
  ⟨by decide, by decide, rfl⟩

/-- C1 (amended): without `:` the epoch is 0; with `:` the prefix before the
first `:` must parse as a Python integer (optional sign, surrounding
whitespace and underscore grouping allowed, so negative epochs pass) or
`split_full_version` raises; the remainder splits at the last `-` into
upstream version and debian revision, the revision defaulting to "0"; and
the three literal cases hold. -/
theorem claim_C1 : ∀ s : String,
    (':' ∉ s.data → '-' ∉ s.data → split_full_version s = .ok (0, s, "0")) ∧
    (':' ∉ s.data → ∀ pre post : List Char, '-' ∉ post → s.data = pre ++ '-' :: post →
      split_full_version s = .ok (0, ⟨pre⟩, ⟨post⟩)) ∧
    (∀ pre rest : List Char, s.data = pre ++ ':' :: rest → ':' ∉ pre →
      (pyInt pre = none → split_full_version s = .error epochErr) ∧
      (∀ e : Int, pyInt pre = some e →
        ('-' ∉ rest → split_full_version s = .ok (e, ⟨rest⟩, "0")) ∧
        (∀ p2 post : List Char, '-' ∉ post → rest = p2 ++ '-' :: post →
          split_full_version s = .ok (e, ⟨p2⟩, ⟨post⟩)))) ∧
    split_full_version "2:1.2.3-4" = .ok (2, "1.2.3", "4") ∧
    split_full_version "1.2.3" = .ok (0, "1.2.3", "0") ∧
    split_full_version "a:1.0" = .error epochErr := by
  intro s
  refine ⟨?_, ?_, ?_, rfl, rfl, rfl⟩
  · intro h1 h2
    rw [split_via s 0 s (get_epoch_no_colon s h1), get_upstream_no_dash s h2]
  · intro h1 pre post hp hs
    rw [split_via s 0 s (get_epoch_no_colon s h1), get_upstream_dash s pre post hs hp]
  · intro pre rest hs hpre
    constructor
    · intro hnone
      have hge := get_epoch_colon s pre rest hs hpre
      rw [hnone] at hge
      simp only [split_full_version, hge]
    · intro e hsome
      have hge := get_epoch_colon s pre rest hs hpre
      rw [hsome] at hge
      constructor
      · intro hnd
        rw [split_via s e ⟨rest⟩ hge, get_upstream_no_dash ⟨rest⟩ hnd]
      · intro p2 post hp hr
        rw [split_via s e ⟨rest⟩ hge, get_upstream_dash ⟨rest⟩ p2 post hr hp]

/-- C1 witness: the general split rules applied at concrete inputs. -/
theorem claim_C1_witness :
    split_full_version "xy" = .ok (0, "xy", "0") ∧
    split_full_version "x-y" = .ok (0, "x", "y") := by
  constructor
  · exact (claim_C1 "xy").1 (by decide) (by decide)
  · exact (claim_C1 "x-y").2.1 (by decide) ['x'] ['y'] (by decide) (by decide)

/-- C10 counterexample: the claim asserts `compare_versions (v ++ "-0") v = 0`
for every `v` without `-`, but for `v = "a:b"` the comparison raises the
malformed-epoch error instead of returning 0. -/
theorem claim_C10_counterexample :
    ('-' ∉ "a:b".data) ∧
    compare_versions ("a:b" ++ "-0") "a:b" = .error epochErr ∧
    ¬ (compare_versions ("a:b" ++ "-0") "a:b" = .ok 0) :=
  ⟨by decide, rfl, by decide⟩

/-- C10 (amended): comparator equality is coarser than string equality:
prefixing an explicit zero epoch to a colon-free version, or suffixing an
explicit "-0" revision to a dash-free version on which `split_full_version`
succeeds, yields a distinct string comparing equal; and digit runs compare
by numeric value, so `compare_versions "1.01" "1.1" = 0` with distinct
strings. -/
theorem claim_C10 :
    (∀ v : String, ':' ∉ v.data →
      compare_versions ("0:" ++ v) v = .ok 0 ∧ "0:" ++ v ≠ v) ∧
    (∀ (v : String) (e : Int) (u d : String), '-' ∉ v.data →
      split_full_version v = .ok (e, u, d) →
      compare_versions (v ++ "-0") v = .ok 0 ∧ v ++ "-0" ≠ v) ∧
    (compare_versions "1.01" "1.1" = .ok 0 ∧ "1.01" ≠ "1.1") := by
  refine ⟨?_, ?_, rfl, by decide⟩
  · intro v hcolon
    have hdata : ("0:" ++ v).data = ['0'] ++ ':' :: v.data := rfl
    have hne : "0:" ++ v ≠ v := by
      intro h
      have hlen := congrArg List.length (congrArg String.data h)
      rw [hdata] at hlen
      simp at hlen
      omega
    have hge : get_epoch ("0:" ++ v) = .ok (0, v) :=
      get_epoch_colon ("0:" ++ v) ['0'] v.data hdata (by decide)
    have hsplit1 : split_full_version ("0:" ++ v) =
        .ok (0, (get_upstream v).1, (get_upstream v).2) := split_via _ 0 v hge
    have hsplit2 : split_full_version v =
        .ok (0, (get_upstream v).1, (get_upstream v).2) :=
      split_via _ 0 v (get_epoch_no_colon v hcolon)
    refine ⟨?_, hne⟩
    rw [compare_versions_eq ("0:" ++ v) v hne 0 _ _ 0 _ _ hsplit1 hsplit2]
    simp [crs_refl]
  · intro v e u d hdash hsplit
    have hne : v ++ "-0" ≠ v := by
      intro h
      have hlen := congrArg List.length (congrArg String.data h)
      rw [show (v ++ "-0").data = v.data ++ ['-', '0'] from rfl] at hlen
      simp at hlen
    have h00 : compare_revision_strings ⟨['0']⟩ "0" = .ok 0 := crs_refl "0"
    by_cases hc : ':' ∈ v.data
    · obtain ⟨pre, rest, hv, hpre⟩ := mem_split_first v.data hc
      have hgev := get_epoch_colon v pre rest hv hpre
      cases hp : pyInt pre with
      | none =>
        rw [hp] at hgev
        simp only [split_full_version, hgev] at hsplit
        exact Except.noConfusion hsplit
      | some e2 =>
        rw [hp] at hgev
        have hdr : '-' ∉ rest := by
          intro hm
          apply hdash
          rw [hv]
          exact List.mem_append_right pre (List.mem_cons_of_mem ':' hm)
        have hsv : split_full_version v = .ok (e2, ⟨rest⟩, "0") := by
          rw [split_via v e2 ⟨rest⟩ hgev, get_upstream_no_dash ⟨rest⟩ hdr]
        have hwdata : (v ++ "-0").data = pre ++ ':' :: (rest ++ ['-', '0']) := by
          show v.data ++ ['-', '0'] = _
          rw [hv]
          simp
        have hgw := get_epoch_colon (v ++ "-0") pre (rest ++ ['-', '0']) hwdata hpre
        rw [hp] at hgw
        have hsw : split_full_version (v ++ "-0") = .ok (e2, ⟨rest⟩, ⟨['0']⟩) := by
          rw [split_via _ e2 ⟨rest ++ ['-', '0']⟩ hgw,
            get_upstream_dash ⟨rest ++ ['-', '0']⟩ rest ['0'] rfl (by decide)]
        refine ⟨?_, hne⟩
        rw [compare_versions_eq (v ++ "-0") v hne e2 ⟨rest⟩ ⟨['0']⟩ e2 ⟨rest⟩ "0" hsw hsv]
        simp [crs_refl, h00]
    · have hgev : get_epoch v = .ok (0, v) := get_epoch_no_colon v hc
      have hsv : split_full_version v = .ok (0, v, "0") := by
        rw [split_via v 0 v hgev, get_upstream_no_dash v hdash]
      have hcw : ':' ∉ (v ++ "-0").data := by
        show ':' ∉ v.data ++ ['-', '0']
        intro hm
        rcases List.mem_append.mp hm with h1 | h1
        · exact hc h1
        · simp at h1
      have hgw : get_epoch (v ++ "-0") = .ok (0, v ++ "-0") := get_epoch_no_colon _ hcw
      have hsw : split_full_version (v ++ "-0") = .ok (0, v, ⟨['0']⟩) := by
        rw [split_via _ 0 (v ++ "-0") hgw,
          get_upstream_dash (v ++ "-0") v.data ['0'] rfl (by decide)]
      refine ⟨?_, hne⟩
      rw [compare_versions_eq (v ++ "-0") v hne 0 v ⟨['0']⟩ 0 v "0" hsw hsv]
      simp [crs_refl, h00]

/-- C10 witness: the zero-epoch and zero-revision equivalences applied at
concrete inputs. -/
theorem claim_C10_witness :
    compare_versions ("0:" ++ "1.2-3") "1.2-3" = .ok 0 ∧
    compare_versions ("1.2" ++ "-0") "1.2" = .ok 0 := by
  constructor
  · exact ((claim_C10.1 "1.2-3") (by decide)).1
  · exact ((claim_C10.2.1 "1.2" 0 "1.2" "0") (by decide) rfl).1

end Dpkg

namespace Dpkg

/-! Structure of `get_alphas`, `get_digits` and `listify`. -/

theorem get_alphas_append : ∀ l : List Char, (get_alphas l).1 ++ (get_alphas l).2 = l := by
  intro l
  induction l with
  | nil => rfl
  | cons c cs ih =>
    by_cases hc : c.isDigit = true
    · simp [get_alphas, hc]
    · rcases hg : get_alphas cs with ⟨a, r⟩
      rw [hg] at ih
      simp only [get_alphas, if_neg hc, hg]
      simpa using ih

theorem get_alphas_nondigit : ∀ (l : List Char) (c : Char),
    c ∈ (get_alphas l).1 → c.isDigit = false := by
  intro l
  induction l with
  | nil => intro c h; simp [get_alphas] at h
  | cons x xs ih =>
    intro c h
    by_cases hx : x.isDigit = true
    · simp [get_alphas, hx] at h
    · rcases hg : get_alphas xs with ⟨a, r⟩
      simp only [get_alphas, if_neg hx, hg] at h
      rcases List.mem_cons.mp h with h1 | h1
      · subst h1
        exact Bool.eq_false_iff.mpr hx
      · exact ih c (by rw [hg]; exact h1)

theorem get_alphas_rest : ∀ l : List Char,
    (get_alphas l).2 = [] ∨
    ∃ c cs, (get_alphas l).2 = c :: cs ∧ c.isDigit = true := by
  intro l
  induction l with
  | nil => exact Or.inl rfl
  | cons x xs ih =>
    by_cases hx : x.isDigit = true
    · exact Or.inr ⟨x, xs, by simp [get_alphas, hx], hx⟩
    · rcases hg : get_alphas xs with ⟨a, r⟩
      rw [hg] at ih
      simp only [get_alphas, if_neg hx, hg]
      simpa using ih

theorem get_alphas_all (l : List Char) (h : ∀ c ∈ l, c.isDigit = false) :
    get_alphas l = (l, []) := by
  induction l with
  | nil => rfl
  | cons x xs ih =>
    have hx : ¬ x.isDigit = true := by
      rw [h x (by simp)]
      simp
    simp only [get_alphas, if_neg hx, ih (fun c hc => h c (by simp [hc]))]

theorem get_digits_go_eq : ∀ (l : List Char) (acc : Nat),
    get_digits_go acc l =
      ((l.takeWhile Char.isDigit).foldl (fun a c => a * 10 + (c.toNat - 48)) acc,
       l.dropWhile Char.isDigit) := by
  intro l
  induction l with
  | nil => intro acc; rfl
  | cons c cs ih =>
    intro acc
    by_cases hc : c.isDigit = true
    · rw [List.takeWhile_cons_of_pos hc, List.dropWhile_cons_of_pos hc]
      simp only [get_digits_go, if_pos hc, List.foldl_cons]
      exact ih _
    · rw [List.takeWhile_cons_of_neg hc, List.dropWhile_cons_of_neg hc]
      simp only [get_digits_go, if_neg hc, List.foldl_nil]

theorem get_digits_eq (l : List Char) :
    get_digits l = (digitVal (l.takeWhile Char.isDigit), l.dropWhile Char.isDigit) :=
  get_digits_go_eq l 0

theorem length_dropWhile_le' (p : Char → Bool) : ∀ l : List Char,
    (l.dropWhile p).length ≤ l.length := by
  intro l
  induction l with
  | nil => simp
  | cons c cs ih =>
    by_cases hc : p c = true
    · rw [List.dropWhile_cons_of_pos hc]
      exact le_trans ih (by simp)
    · rw [List.dropWhile_cons_of_neg hc]

theorem listify_go_cons (fuel : Nat) (c : Char) (cs : List Char) :
    listify_go (fuel + 1) (c :: cs) =
      Tok.str ⟨(get_alphas (c :: cs)).1⟩ ::
      Tok.num (get_digits (get_alphas (c :: cs)).2).1 ::
      listify_go fuel (get_digits (get_alphas (c :: cs)).2).2 := rfl

theorem chunked_listify_go : ∀ (fuel : Nat) (l : List Char),
    chunked (listify_go fuel l) = true := by
  intro fuel
  induction fuel with
  | zero =>
    intro l
    cases l <;> rfl
  | succ f ih =>
    intro l
    cases l with
    | nil => rfl
    | cons c cs =>
      rw [listify_go_cons]
      simp only [chunked]
      exact ih _

theorem chunked_even : ∀ l : List Tok, chunked l = true → l.length % 2 = 0
  | [], _ => rfl
  | .str _ :: .num _ :: rest, h => by
      have ih := chunked_even rest (by simpa [chunked] using h)
      simp only [List.length_cons]
      omega
  | .str _ :: [], h => by simp [chunked] at h
  | .str _ :: .str _ :: _, h => by simp [chunked] at h
  | .num _ :: _, h => by simp [chunked] at h

end Dpkg

namespace Dpkg

/-! Canonical decimal rendering. -/

theorem ndFuel_congr : ∀ (f g n : Nat), n ≤ f → n ≤ g → ndFuel f n = ndFuel g n := by
  intro f
  induction f with
  | zero =>
    intro g n hf _
    have hn : n = 0 := by omega
    subst hn
    cases g with
    | zero => rfl
    | succ g' => simp [ndFuel]
  | succ f' ih =>
    intro g n hf hg
    by_cases hn : n < 10
    · cases g with
      | zero =>
        have : n = 0 := by omega
        subst this
        simp [ndFuel]
      | succ g' => simp only [ndFuel, if_pos hn]
    · have h10 : 10 ≤ n := by omega
      cases g with
      | zero => omega
      | succ g' =>
        simp only [ndFuel, if_neg hn]
        congr 1
        have hdl := Nat.div_lt_self (by omega : 0 < n) (by norm_num : 1 < 10)
        exact ih g' (n / 10) (by omega) (by omega)

theorem natToDigits_lt10 (n : Nat) (h : n < 10) : natToDigits n = [Nat.digitChar n] := by
  cases n with
  | zero => rfl
  | succ m => simp [natToDigits, ndFuel, h]

theorem natToDigits_tens (v e : Nat) (he : e < 10) (hv : 1 ≤ v) :
    natToDigits (10 * v + e) = natToDigits v ++ [Nat.digitChar e] := by
  obtain ⟨k, hk⟩ : ∃ k, 10 * v + e = k + 1 := ⟨10 * v + e - 1, by omega⟩
  have hdiv : (10 * v + e) / 10 = v := by
    rw [Nat.mul_add_div (by norm_num)]
    simp [Nat.div_eq_of_lt he]
  have hmod : (10 * v + e) % 10 = e := by
    rw [Nat.mul_add_mod]
    exact Nat.mod_eq_of_lt he
  show ndFuel (10 * v + e) (10 * v + e) = _
  rw [hk]
  simp only [ndFuel, if_neg (by omega : ¬ k + 1 < 10)]
  rw [← hk, hdiv, hmod]
  congr 1
  exact ndFuel_congr k v v (by omega) le_rfl

theorem char_digit_bounds (c : Char) (h : c.isDigit = true) :
    48 ≤ c.toNat ∧ c.toNat ≤ 57 := by
  simp [Char.isDigit] at h
  exact h

theorem digitChar_val (k : Nat) (h : k < 10) : (Nat.digitChar k).toNat = 48 + k := by
  interval_cases k <;> rfl

theorem digitChar_toNat (c : Char) (h : c.isDigit = true) :
    Nat.digitChar (c.toNat - 48) = c := by
  obtain ⟨h1, h2⟩ := char_digit_bounds c h
  apply char_toNat_inj
  rw [digitChar_val (c.toNat - 48) (by omega)]
  omega

theorem digitVal_append_singleton (ds : List Char) (d : Char) :
    digitVal (ds ++ [d]) = digitVal ds * 10 + (d.toNat - 48) := by
  unfold digitVal
  rw [List.foldl_append]
  rfl

theorem foldl_step_ge : ∀ (ds : List Char) (acc : Nat),
    acc ≤ ds.foldl (fun a c => a * 10 + (c.toNat - 48)) acc := by
  intro ds
  induction ds with
  | nil => intro acc; simp
  | cons c cs ih =>
    intro acc
    rw [List.foldl_cons]
    calc acc ≤ acc * 10 + (c.toNat - 48) := by omega
      _ ≤ _ := ih _

theorem digitVal_pos (d : Char) (ds : List Char) (hd : d.isDigit = true) (h0 : d ≠ '0') :
    1 ≤ digitVal (d :: ds) := by
  unfold digitVal
  rw [List.foldl_cons]
  have h1 := (char_digit_bounds d hd).1
  have h48 : d.toNat ≠ 48 := by
    intro he
    exact h0 (char_toNat_inj (show d.toNat = '0'.toNat from by rw [he]; rfl))
  calc 1 ≤ 0 * 10 + (d.toNat - 48) := by omega
    _ ≤ _ := foldl_step_ge ds _

theorem natToDigits_digitVal : ∀ run : List Char,
    (∀ c ∈ run, c.isDigit = true) → run ≠ [] →
    (∀ c cs, run = c :: cs → (c ≠ '0' ∨ cs = [])) →
    natToDigits (digitVal run) = run := by
  intro run
  induction run using List.reverseRecOn with
  | nil => intro _ h _; exact absurd rfl h
  | append_singleton ds d ih =>
    intro hdig _ hcanon
    cases ds with
    | nil =>
      have hd : d.isDigit = true := hdig d (by simp)
      have hb := char_digit_bounds d hd
      show natToDigits (digitVal [d]) = [d]
      have hdv : digitVal [d] = d.toNat - 48 := by
        simp [digitVal]
      rw [hdv, natToDigits_lt10 _ (by omega), digitChar_toNat d hd]
    | cons c ds' =>
      have hd : d.isDigit = true := hdig d (by simp)
      have hc0 : c ≠ '0' := by
        rcases hcanon c (ds' ++ [d]) (by simp) with h | h
        · exact h
        · exact absurd h (by simp)
      have hcd : c.isDigit = true := hdig c (by simp)
      have hv1 : 1 ≤ digitVal (c :: ds') := digitVal_pos c ds' hcd hc0
      have hall : ∀ x ∈ c :: ds', x.isDigit = true :=
        fun x hx => hdig x (List.mem_append_left [d] hx)
      have hcanon' : ∀ c2 cs2, c :: ds' = c2 :: cs2 → (c2 ≠ '0' ∨ cs2 = []) := by
        intro c2 cs2 he
        injection he with he1 he2
        subst he1
        exact Or.inl hc0
      have hb := char_digit_bounds d hd
      rw [digitVal_append_singleton (c :: ds') d,
        show digitVal (c :: ds') * 10 + (d.toNat - 48) =
          10 * digitVal (c :: ds') + (d.toNat - 48) from by ring,
        natToDigits_tens _ _ (by omega) hv1,
        ih hall (by simp) hcanon', digitChar_toNat d hd]

end Dpkg

namespace Dpkg

theorem canonF_cons (fuel : Nat) (c : Char) (cs : List Char) :
    canonF (fuel + 1) (c :: cs) =
      ((match (get_alphas (c :: cs)).2 with
        | [] => true
        | d :: ds => decide (d ≠ '0') || (ds.takeWhile Char.isDigit).isEmpty) &&
       canonF fuel (get_digits (get_alphas (c :: cs)).2).2) := rfl

theorem render_go : ∀ (fuel : Nat) (l : List Char), l.length ≤ fuel →
    canonF fuel l = true →
    (l.getLast?).all Char.isDigit = true →
    renderToks (listify_go fuel l) = l := by
  intro fuel
  induction fuel with
  | zero =>
    intro l hlen _ _
    have hl : l = [] := List.length_eq_zero.mp (by omega)
    subst hl
    rfl
  | succ f ih =>
    intro l hlen hcanon hlast
    cases l with
    | nil => rfl
    | cons c cs =>
      rcases hga : get_alphas (c :: cs) with ⟨a, r1⟩
      have happ : a ++ r1 = c :: cs := by
        have h2 := get_alphas_append (c :: cs)
        rw [hga] at h2
        exact h2
      rcases get_alphas_rest (c :: cs) with hr1 | ⟨d, ds, hr1, hd⟩
      · -- only non-digit characters: the string would end in a non-digit
        rw [hga] at hr1
        simp only at hr1
        subst hr1
        rw [List.append_nil] at happ
        have hne : (c :: cs) ≠ [] := by simp
        rw [List.getLast?_eq_getLast _ hne] at hlast
        have hmem : (c :: cs).getLast hne ∈ (c :: cs) := List.getLast_mem hne
        have hnd := get_alphas_nondigit (c :: cs) ((c :: cs).getLast hne)
          (by rw [hga]; exact (by rw [happ]; exact hmem))
        simp only [Option.all_some] at hlast
        rw [hnd] at hlast
        exact absurd hlast (by simp)
      · rw [hga] at hr1
        simp only at hr1
        subst hr1
        rcases hgd : get_digits (d :: ds) with ⟨n, r2⟩
        have hgd_eq := get_digits_eq (d :: ds)
        rw [hgd, Prod.mk.injEq] at hgd_eq
        obtain ⟨hn, hr2⟩ := hgd_eq
        have hrun_cons : (d :: ds).takeWhile Char.isDigit = d :: ds.takeWhile Char.isDigit :=
          List.takeWhile_cons_of_pos hd
        have hsplit : c :: cs = a ++ ((d :: ds).takeWhile Char.isDigit ++ r2) := by
        
          rw [hr2, List.takeWhile_append_dropWhile]
          exact happ.symm
        -- canonical-run condition
        have hcanon2 := hcanon
        rw [canonF_cons, hga] at hcanon2
        simp only [Bool.and_eq_true] at hcanon2
        obtain ⟨hhead, htail⟩ := hcanon2
        rw [hgd] at htail
        simp only at htail
        -- run facts
        have hrun_digits : ∀ x ∈ (d :: ds).takeWhile Char.isDigit, x.isDigit = true := by
          intro x hx
          exact List.mem_takeWhile_imp hx
        have hrun_ne : (d :: ds).takeWhile Char.isDigit ≠ [] := by
          rw [hrun_cons]
          simp
        have hrun_canon : ∀ c2 cs2, (d :: ds).takeWhile Char.isDigit = c2 :: cs2 →
            (c2 ≠ '0' ∨ cs2 = []) := by
          intro c2 cs2 he
          rw [hrun_cons] at he
          injection he with he1 he2
          subst he1
          subst he2
          have hh := hhead
          simp only [Bool.or_eq_true] at hh
          rcases hh with h | h
          · exact Or.inl (of_decide_eq_true h)
          · exact Or.inr (List.isEmpty_iff.mp h)
        -- lengths
        have hlen_split := congrArg List.length hsplit
        rw [List.length_append, List.length_append, hrun_cons] at hlen_split
        simp only [List.length_cons] at hlen_split
        have hr2f : r2.length ≤ f := by
          simp only [List.length_cons] at hlen
          omega
        -- tail end-of-string condition
        have hlast2 : (r2.getLast?).all Char.isDigit = true := by
          cases hr2c : r2 with
          | nil => rfl
          | cons y ys =>
            rw [hr2c] at hsplit
            rw [show a ++ ((d :: ds).takeWhile Char.isDigit ++ y :: ys) =
              (a ++ (d :: ds).takeWhile Char.isDigit) ++ y :: ys from by simp] at hsplit
            rw [hsplit, List.getLast?_append_cons] at hlast
            exact hlast
        -- canonF for the remainder
        have htail2 : canonF f r2 = true := htail
        -- assemble
        rw [listify_go_cons, hga, hgd]
        simp only [renderToks, renderTok, List.append_nil]
        rw [hn, natToDigits_digitVal _ hrun_digits hrun_ne hrun_canon,
          ih r2 hr2f htail2 hlast2]
        rw [← List.append_assoc] at hsplit
        rw [← List.append_assoc]
        exact hsplit.symm

end Dpkg

namespace Dpkg

/-- C6 counterexample: concatenating the `listify` tokens does not in
general reconstruct the string: a trailing empty digit run renders as an
extra `0` (`"a"` becomes `"a0"`), and leading zeros of a digit run are lost
(`"00"` becomes `"0"`). -/
theorem claim_C6_counterexample :
    listify "a".data = [Tok.str "a", Tok.num 0] ∧
    renderToks (listify "a".data) = "a0".data ∧
    ¬ (renderToks (listify "a".data) = "a".data) ∧
    listify "00".data = [Tok.str "", Tok.num 0] ∧
    renderToks (listify "00".data) = "0".data ∧
    ¬ (renderToks (listify "00".data) = "00".data) :=
  ⟨rfl, rfl, by decide, rfl, rfl, by decide⟩

/-- C6 (amended): `listify` always produces an even-length strictly
alternating string/int token sequence beginning with a string slot (an
entirely non-digit string yields `[s, 0]`, a digit-leading string begins
with the empty string token), and concatenating the tokens reconstructs the
original string provided every maximal digit run is canonical decimal (no
leading zero) and the string is empty or ends with a digit; otherwise the
interpolated zeros and dropped leading zeros make the reconstruction
differ. -/
theorem claim_C6 : ∀ s : String,
    chunked (listify s.data) = true ∧
    (listify s.data).length % 2 = 0 ∧
    (s.data ≠ [] → (∀ c ∈ s.data, c.isDigit = false) →
      listify s.data = [Tok.str s, Tok.num 0]) ∧
    (∀ c cs, s.data = c :: cs → c.isDigit = true →
      ∃ n rest, listify s.data = Tok.str "" :: Tok.num n :: rest) ∧
    (digitRunsCanon s.data = true → (s.data.getLast?).all Char.isDigit = true →
      renderToks (listify s.data) = s.data) := by
  intro s
  refine ⟨chunked_listify_go _ _, chunked_even _ (chunked_listify_go _ _), ?_, ?_, ?_⟩
  · intro hne hall
    cases hd : s.data with
    | nil => exact absurd hd hne
    | cons c cs =>
      have hs : s = ⟨c :: cs⟩ := by rw [← hd]
      unfold listify
      rw [show (c :: cs).length = cs.length + 1 from rfl, listify_go_cons,
        get_alphas_all (c :: cs) (hd ▸ hall), hs]
      have hnil : listify_go cs.length ([] : List Char) = [] := by
        cases cs.length <;> rfl
      simp only []
      rw [show get_digits ((c :: cs, ([] : List Char)).2) = (0, []) from rfl]
      simp only [hnil]
  · intro c cs hd hc
    refine ⟨(get_digits (c :: cs)).1, listify_go cs.length (get_digits (c :: cs)).2, ?_⟩
    unfold listify
    rw [hd, show (c :: cs).length = cs.length + 1 from rfl, listify_go_cons,
      show get_alphas (c :: cs) = ([], c :: cs) from by
        unfold get_alphas
        rw [if_pos hc]]
  · intro hcanon hlast
    exact render_go s.data.length s.data le_rfl hcanon hlast

/-- C6 witness: the invariants and the canonical-form reconstruction applied
at a concrete revision string. -/
theorem claim_C6_witness :
    chunked (listify "a12".data) = true ∧
    renderToks (listify "a12".data) = "a12".data :=
  ⟨(claim_C6 "a12").1, (claim_C6 "a12").2.2.2.2 (by decide) (by decide)⟩

end Dpkg
